import Mathlib

/-!
# Verification of the frame-by-frame tracking and ILP tracking notebooks

Shallow embedding of the linking / tracking engine of the repository
(`exercise1.py`, `exercise3.py`):

* label images (frames) are modelled as flat lists of integer pixel values;
* the per-pair linking dictionaries (`{"links": (ids_from, ids_to), "births": …,
  "deaths": …}`) are modelled by the structure `LinkResult`;
* numpy reductions (`min`, `max`) are modelled by `List.min?` / `List.max?`,
  which are `none` exactly when numpy raises on a zero-size array;
* Python `sorted` is modelled by `List.insertionSort (· ≤ ·)`;
* floating point costs are modelled by exact rationals (`ℚ`); algorithms that
  only ever compare costs are modelled over an arbitrary linear order.

Functions of the repository that are left as `### YOUR CODE HERE ###` stubs in
the source (the greedy `nearest_neighbor` matcher and the Jaqaman-style
augmented-square assignment inside `BipartiteMatchingLinker._link_two_frames`)
are modelled from the specification; their doc comments say so explicitly.
-/

namespace Tracking

/-- The per-pair linking dictionary returned by `_link_two_frames` and consumed
by `link`, `_assert_links` and `relabel_detections`:
`{"links": (ids_from, ids_to), "births": …, "deaths": …}`.
Ids are one-based, `0` is reserved for background. -/
structure LinkResult where
  idsFrom : List ℕ
  idsTo : List ℕ
  births : List ℕ
  deaths : List ℕ
deriving DecidableEq

/-- Distinct pixel values of a frame (`len(np.unique(x))`). -/
def uniqueCount (x : List ℤ) : ℕ := x.toFinset.card

/-- `FrameByFrameLinker._assert_relabeled` (exercise1.py): raises `ValueError`
if the frame contains a negative id, or if the number of distinct pixel values
is not `max+1` (when the minimum is `0`) resp. `max` (otherwise).  `numpy`
raises on `min`/`max` of a zero-size array; that case is the final `.error`. -/
def assertRelabeled (x : List ℤ) : Except String Unit :=
  match x.min?, x.max? with
  | some mn, some mx =>
    if mn < 0 then .error "Negative ID in detections."
    else if (if mn = 0 then mx + 1 else mx) ≠ (uniqueCount x : ℤ) then
      .error "Detection IDs are not contiguous."
    else .ok ()
  | _, _ => .error "zero-size array to reduction operation which has no identity"

lemma intLeAntisymm : Std.Antisymm (fun x1 x2 : ℤ => x1 ≤ x2) :=
  ⟨fun h1 h2 => le_antisymm h1 h2⟩

lemma min?_int_spec {x : List ℤ} {mn : ℤ} (h : x.min? = some mn) :
    mn ∈ x ∧ ∀ v ∈ x, mn ≤ v := by
  haveI := intLeAntisymm
  rw [List.min?_eq_some_iff (fun a => le_refl a) (fun a b => min_choice a b)
    (fun a b c => le_min_iff)] at h
  exact h

lemma max?_int_spec {x : List ℤ} {mx : ℤ} (h : x.max? = some mx) :
    mx ∈ x ∧ ∀ v ∈ x, v ≤ mx := by
  haveI := intLeAntisymm
  rw [List.max?_eq_some_iff (fun a => le_refl a) (fun a b => max_choice a b)
    (fun a b c => max_le_iff)] at h
  exact h

lemma min?_isSome_of_ne_nil {x : List ℤ} (h : x ≠ []) : ∃ mn, x.min? = some mn := by
  cases hm : x.min? with
  | none => exact absurd (List.min?_eq_none_iff.mp hm) h
  | some mn => exact ⟨mn, rfl⟩

lemma max?_isSome_of_ne_nil {x : List ℤ} (h : x ≠ []) : ∃ mx, x.max? = some mx := by
  cases hm : x.max? with
  | none => exact absurd (List.max?_eq_none_iff.mp hm) h
  | some mx => exact ⟨mx, rfl⟩

lemma except_error_iff_ne_ok (r : Except String Unit) :
    (∃ e, r = .error e) ↔ ¬ r = .ok () := by
  cases r with
  | ok u => cases u; simp
  | error e => simp

/-- The exact acceptance condition of `_assert_relabeled` on a nonempty frame,
phrased through the frame's maximum `mx`. -/
lemma assertRelabeled_ok_iff {x : List ℤ} {mx : ℤ} (hne : x ≠ [])
    (hmx : x.max? = some mx) :
    assertRelabeled x = .ok () ↔
      (∀ v ∈ x, 0 ≤ v) ∧
        ((0 : ℤ) ∈ x → (uniqueCount x : ℤ) = mx + 1) ∧
        ((0 : ℤ) ∉ x → (uniqueCount x : ℤ) = mx) := by
  obtain ⟨mn, hmn⟩ := min?_isSome_of_ne_nil hne
  obtain ⟨hmnmem, hmnle⟩ := min?_int_spec hmn
  obtain ⟨hmxmem, hmxge⟩ := max?_int_spec hmx
  simp only [assertRelabeled, hmn, hmx]
  by_cases hneg : mn < 0
  · rw [if_pos hneg]
    refine iff_of_false (by simp) ?_
    rintro ⟨hnn, -, -⟩
    exact absurd (hnn mn hmnmem) hneg.not_le
  · rw [if_neg hneg]
    push_neg at hneg
    have hnn : ∀ v ∈ x, 0 ≤ v := fun v hv => le_trans hneg (hmnle v hv)
    by_cases hz : (0 : ℤ) ∈ x
    · have hmn0 : mn = 0 := le_antisymm (hmnle 0 hz) hneg
      rw [if_pos hmn0]
      by_cases hcard : (uniqueCount x : ℤ) = mx + 1
      · rw [if_neg (show ¬ mx + 1 ≠ (uniqueCount x : ℤ) from fun h => h hcard.symm)]
        exact iff_of_true rfl ⟨hnn, fun _ => hcard, fun h0 => absurd hz h0⟩
      · rw [if_pos (show mx + 1 ≠ (uniqueCount x : ℤ) from fun h => hcard h.symm)]
        exact iff_of_false (by simp) (fun h => hcard (h.2.1 hz))
    · have hmn0 : mn ≠ 0 := fun he => hz (he ▸ hmnmem)
      rw [if_neg hmn0]
      by_cases hcard : (uniqueCount x : ℤ) = mx
      · rw [if_neg (show ¬ mx ≠ (uniqueCount x : ℤ) from fun h => h hcard.symm)]
        exact iff_of_true rfl ⟨hnn, fun h0 => absurd h0 hz, fun _ => hcard⟩
      · rw [if_pos (show mx ≠ (uniqueCount x : ℤ) from fun h => hcard h.symm)]
        exact iff_of_false (by simp) (fun h => hcard (h.2.2 hz))

/-- C10 — `_assert_relabeled` accepts an all-zero frame and a background-free
frame whose labels are contiguous from 1, and on any nonempty frame it raises
`ValueError` exactly when some pixel value is negative or when the number of
distinct pixel values differs from `max+1` (background `0` present) resp. `max`
(background absent). -/
theorem C10_assert_relabeled_exact (x : List ℤ) (mx : ℤ) (hne : x ≠ [])
    (hmx : x.max? = some mx) :
    ((∃ e, assertRelabeled x = .error e) ↔
      (∃ v ∈ x, v < 0) ∨
        (if (0 : ℤ) ∈ x then (uniqueCount x : ℤ) ≠ mx + 1
         else (uniqueCount x : ℤ) ≠ mx)) ∧
      (∀ k : ℕ, assertRelabeled (List.replicate (k + 1) 0) = .ok ()) ∧
      ((∀ v ∈ x, 1 ≤ v ∧ v ≤ mx) → (∀ k : ℤ, 1 ≤ k → k ≤ mx → k ∈ x) →
        assertRelabeled x = .ok ()) := by
  refine ⟨?_, ?_, ?_⟩
  · rw [except_error_iff_ne_ok, (assertRelabeled_ok_iff hne hmx).not]
    constructor
    · intro h
      by_contra hc
      push_neg at hc
      obtain ⟨hc1, hc2⟩ := hc
      refine h ⟨?_, ?_, ?_⟩
      · exact hc1
      · intro h0
        rw [if_pos h0] at hc2
        exact not_not.mp hc2
      · intro h0
        rw [if_neg h0] at hc2
        exact not_not.mp hc2
    · rintro (⟨v, hv, hvneg⟩ | h) ⟨hnn, h0, h0'⟩
      · exact absurd (hnn v hv) hvneg.not_le
      · by_cases hz : (0 : ℤ) ∈ x
        · rw [if_pos hz] at h; exact h (h0 hz)
        · rw [if_neg hz] at h; exact h (h0' hz)
  · intro k
    have hmem : (0 : ℤ) ∈ List.replicate (k + 1) (0 : ℤ) := by
      simp
    have hrep : (List.replicate (k + 1) (0 : ℤ)).toFinset = {0} := by
      ext v; simp
    have hmax : (List.replicate (k + 1) (0 : ℤ)).max? = some 0 := by
      haveI := intLeAntisymm
      rw [List.max?_eq_some_iff (fun a => le_refl a) (fun a b => max_choice a b)
        (fun a b c => max_le_iff)]
      refine ⟨hmem, ?_⟩
      intro b hb
      rw [List.eq_of_mem_replicate hb]
    refine (assertRelabeled_ok_iff (by simp) hmax).mpr ⟨?_, ?_, ?_⟩
    · intro v hv; rw [List.eq_of_mem_replicate hv]
    · intro _; rw [uniqueCount, hrep]; simp
    · intro h; exact absurd hmem h
  · intro hrange hcover
    have htf : x.toFinset = Finset.Icc 1 mx := by
      ext v
      simp only [List.mem_toFinset, Finset.mem_Icc]
      constructor
      · intro hv; exact hrange v hv
      · rintro ⟨hv1, hv2⟩; exact hcover v hv1 hv2
    have hz : (0 : ℤ) ∉ x := by
      intro h0
      exact absurd (hrange 0 h0).1 (by norm_num)
    refine (assertRelabeled_ok_iff hne hmx).mpr ⟨?_, ?_, ?_⟩
    · intro v hv; exact le_trans zero_le_one (hrange v hv).1
    · intro h0; exact absurd h0 hz
    · intro _
      have h1 : (1 : ℤ) ≤ mx := (hrange mx (max?_int_spec hmx).1).1
      rw [uniqueCount, htf, Int.card_Icc]
      omega

/-- Witness for C10 at a concrete frame `[0, 1, 2, 2]`. -/
theorem C10_assert_relabeled_exact_witness :
    (∃ e, assertRelabeled [0, 1, 2, 2] = .error e) ↔
      (∃ v ∈ ([0, 1, 2, 2] : List ℤ), v < 0) ∨
        (if (0 : ℤ) ∈ ([0, 1, 2, 2] : List ℤ)
         then (uniqueCount [0, 1, 2, 2] : ℤ) ≠ 2 + 1
         else (uniqueCount [0, 1, 2, 2] : ℤ) ≠ 2) :=
  (C10_assert_relabeled_exact [0, 1, 2, 2] 2 (by decide) (by decide)).1

/-! ## Greedy nearest-neighbor matching (exercise 1.4)

The body of `nearest_neighbor` is a `### YOUR CODE HERE ###` stub in the
source; only its docstring, contract and a unit test are given.  The greedy
algorithm below is modelled from the spec (§4.2): repeatedly select the
globally smallest remaining entry of the cost matrix, accept the match, remove
its row and column, and repeat; ties are broken deterministically in
lexicographic row-then-column order.  The matcher only ever compares costs, so
it is modelled over an arbitrary linear order. -/

/-- Entry `M[r][c]` of a cost matrix stored as a list of rows. -/
def matrixEntry? {α : Type} (M : List (List α)) (r c : ℕ) : Option α :=
  (M.get? r).bind fun row => row.get? c

/-- Modelled from the spec: keep the current best (strictly smaller wins, so
the first minimum in scan order is retained — lexicographic tie-break). -/
def betterPair {α : Type} [LinearOrder α] (best : Option (ℕ × ℕ × α))
    (cand : ℕ × ℕ × α) : Option (ℕ × ℕ × α) :=
  match best with
  | none => some cand
  | some (r, c, v) => if cand.2.2 < v then some cand else some (r, c, v)

/-- Modelled from the spec: the globally smallest remaining entry among the
still-available rows and columns, scanning rows then columns in order. -/
def bestPair {α : Type} [LinearOrder α] (M : List (List α))
    (rows cols : List ℕ) : Option (ℕ × ℕ × α) :=
  rows.foldl
    (fun acc r =>
      cols.foldl
        (fun acc' c =>
          match matrixEntry? M r c with
          | none => acc'
          | some v => betterPair acc' (r, c, v))
        acc)
    none

/-- Modelled from the spec: greedy loop, one accepted match per step. -/
def greedyGo {α : Type} [LinearOrder α] (M : List (List α)) :
    ℕ → List ℕ → List ℕ → List (ℕ × ℕ)
  | 0, _, _ => []
  | fuel + 1, rows, cols =>
    match bestPair M rows cols with
    | none => []
    | some (r, c, _) => (r, c) :: greedyGo M fuel (rows.erase r) (cols.erase c)

/-- Modelled from the spec: `nearest_neighbor(cost_matrix)` (exercise1.py, a
`YOUR CODE HERE` stub) — greedy nearest neighbor assignment; each point of
both sets is assigned at most once; returns `(ids_of_rows, ids_of_columns)`
in the order the matches were accepted. -/
def nearest_neighbor {α : Type} [LinearOrder α] (M : List (List α)) :
    List ℕ × List ℕ :=
  let m := M.length
  let n := (M.headD []).length
  let ms := greedyGo M (min m n) (List.range m) (List.range n)
  (ms.map Prod.fst, ms.map Prod.snd)

/-- C4 — on the cost matrix `[[9,2,9],[9,9,9],[1,9,9],[9,3,9]]` the greedy
matcher returns matches `(2,0), (0,1), (1,2)` in that order, and row `3` is
unmatched (a death).  This is the unit test shipped with the source
(`idx_from == [2, 0, 1]`, `idx_to == [0, 1, 2]`). -/
theorem C4_nearest_neighbor_concrete :
    nearest_neighbor ([[9, 2, 9], [9, 9, 9], [1, 9, 9], [9, 3, 9]] :
        List (List ℕ)) = ([2, 0, 1], [0, 1, 2]) ∧
      3 ∉ (nearest_neighbor ([[9, 2, 9], [9, 9, 9], [1, 9, 9], [9, 3, 9]] :
        List (List ℕ))).1 := by
  decide

/-! ## Candidate graph construction (`build_graph`, exercise3.py)

`build_graph` walks consecutive frame pairs and, for each pair of detections
`(i, j)`, adds an edge iff `np.linalg.norm(c0 - c1) < max_distance`, with
weight `np.linalg.norm(c0 + drift - c1) / max_distance`.  Centroids (produced
by `skimage.measure.regionprops` on the relabeled frame) are taken as the
per-frame input here; global node ids and `edge_id` bookkeeping do not affect
the claim and are omitted.  Since the Euclidean norm is a square root, the
model stores the *square* of each quantity: the comparison `√s < b` is encoded
by `sqrtLt s b` and each edge carries `weightSq` = (weight)². -/

/-- Squared Euclidean distance of two 2-d centroids. -/
def sqDist (p q : ℚ × ℚ) : ℚ := (p.1 - q.1) ^ 2 + (p.2 - q.2) ^ 2

/-- Componentwise sum (`c0 + np.array(drift)`). -/
def addPt (p q : ℚ × ℚ) : ℚ × ℚ := (p.1 + q.1, p.2 + q.2)

/-- `√s < b` for `s ≥ 0`, expressed without square roots:
`√s < b ↔ 0 < b ∧ s < b²`. -/
def sqrtLt (s b : ℚ) : Bool := decide (0 < b) && decide (s < b ^ 2)

/-- One candidate-graph edge: frame index `t` of the source detection, the
indices `i` (in frame `t`) and `j` (in frame `t+1`) of its endpoints, and the
square of the normalized drift-corrected weight. -/
structure GraphEdge where
  t : ℕ
  i : ℕ
  j : ℕ
  weightSq : ℚ
deriving DecidableEq

/-- Inner loop of `build_graph`: edges from detection `i` (centroid `c0`) of
frame `t` to the detections of frame `t+1`, starting at column index `j0`. -/
def colEdges (md : ℚ) (drift : ℚ × ℚ) (t i : ℕ) (c0 : ℚ × ℚ) :
    ℕ → List (ℚ × ℚ) → List GraphEdge
  | _, [] => []
  | j, c1 :: rest =>
    (if sqrtLt (sqDist c0 c1) md then
      [⟨t, i, j, sqDist (addPt c0 drift) c1 / md ^ 2⟩]
    else []) ++ colEdges md drift t i c0 (j + 1) rest

/-- Middle loop of `build_graph`: all edges between frame `t` and frame `t+1`,
starting at row index `i0`. -/
def rowEdges (md : ℚ) (drift : ℚ × ℚ) (t : ℕ) :
    ℕ → List (ℚ × ℚ) → List (ℚ × ℚ) → List GraphEdge
  | _, [], _ => []
  | i, c0 :: rest, f1 =>
    colEdges md drift t i c0 0 f1 ++ rowEdges md drift t (i + 1) rest f1

/-- Outer loop of `build_graph` over `zip(detections, detections[1:])`. -/
def buildGraphEdges (md : ℚ) (drift : ℚ × ℚ) :
    ℕ → List (List (ℚ × ℚ)) → List GraphEdge
  | _, [] => []
  | _, [_] => []
  | t, f0 :: f1 :: rest =>
    rowEdges md drift t 0 f0 f1 ++ buildGraphEdges md drift (t + 1) (f1 :: rest)

/-- `build_graph(detections, max_distance, drift)` (exercise3.py), restricted
to the edge set it produces over the per-frame centroid lists. -/
def build_graph (frames : List (List (ℚ × ℚ))) (md : ℚ) (drift : ℚ × ℚ) :
    List GraphEdge :=
  buildGraphEdges md drift 0 frames

lemma mem_colEdges_iff {md : ℚ} {drift : ℚ × ℚ} {t i : ℕ} {c0 : ℚ × ℚ}
    {j0 : ℕ} {cs : List (ℚ × ℚ)} {e : GraphEdge} :
    e ∈ colEdges md drift t i c0 j0 cs ↔
      ∃ k c1, cs.get? k = some c1 ∧ sqrtLt (sqDist c0 c1) md = true ∧
        e = ⟨t, i, j0 + k, sqDist (addPt c0 drift) c1 / md ^ 2⟩ := by
  induction cs generalizing j0 with
  | nil => simp [colEdges]
  | cons c1 rest ih =>
    rw [colEdges]
    constructor
    · intro h
      rcases List.mem_append.mp h with h | h
      · by_cases hg : sqrtLt (sqDist c0 c1) md = true
        · rw [if_pos hg] at h
          simp only [List.mem_singleton] at h
          exact ⟨0, c1, rfl, hg, by simpa using h⟩
        · rw [if_neg hg] at h
          exact absurd h (List.not_mem_nil e)
      · obtain ⟨k, c1', hget, hg, he⟩ := ih.mp h
        exact ⟨k + 1, c1', by simpa using hget, hg, by rw [he]; congr 1; omega⟩
    · rintro ⟨k, c1', hget, hg, he⟩
      cases k with
      | zero =>
        simp only [List.get?_cons_zero, Option.some.injEq] at hget
        subst hget
        refine List.mem_append.mpr (Or.inl ?_)
        rw [if_pos hg, he]
        simp
      | succ k =>
        refine List.mem_append.mpr (Or.inr ?_)
        refine ih.mpr ⟨k, c1', by simpa using hget, hg, ?_⟩
        rw [he]; congr 1; omega

lemma mem_rowEdges_iff {md : ℚ} {drift : ℚ × ℚ} {t : ℕ} {i0 : ℕ}
    {f0 f1 : List (ℚ × ℚ)} {e : GraphEdge} :
    e ∈ rowEdges md drift t i0 f0 f1 ↔
      ∃ k c0 j c1, f0.get? k = some c0 ∧ f1.get? j = some c1 ∧
        sqrtLt (sqDist c0 c1) md = true ∧
        e = ⟨t, i0 + k, j, sqDist (addPt c0 drift) c1 / md ^ 2⟩ := by
  induction f0 generalizing i0 with
  | nil => simp [rowEdges]
  | cons c0 rest ih =>
    rw [rowEdges]
    constructor
    · intro h
      rcases List.mem_append.mp h with h | h
      · obtain ⟨j, c1, hget, hg, he⟩ := mem_colEdges_iff.mp h
        exact ⟨0, c0, j, c1, rfl, hget, hg, by simpa using he⟩
      · obtain ⟨k, c0', j, c1, hget0, hget1, hg, he⟩ := ih.mp h
        exact ⟨k + 1, c0', j, c1, by simpa using hget0, hget1, hg,
          by rw [he]; congr 1; omega⟩
    · rintro ⟨k, c0', j, c1, hget0, hget1, hg, he⟩
      cases k with
      | zero =>
        simp only [List.get?_cons_zero, Option.some.injEq] at hget0
        subst hget0
        refine List.mem_append.mpr (Or.inl ?_)
        exact mem_colEdges_iff.mpr ⟨j, c1, by simpa using hget1, hg, by simpa using he⟩
      | succ k =>
        refine List.mem_append.mpr (Or.inr ?_)
        refine ih.mpr ⟨k, c0', j, c1, by simpa using hget0, hget1, hg, ?_⟩
        rw [he]; congr 1; omega

lemma mem_buildGraphEdges_iff {md : ℚ} {drift : ℚ × ℚ} {t0 : ℕ}
    {frames : List (List (ℚ × ℚ))} {e : GraphEdge} :
    e ∈ buildGraphEdges md drift t0 frames ↔
      ∃ k f0 f1 i c0 j c1, frames.get? k = some f0 ∧
        frames.get? (k + 1) = some f1 ∧ f0.get? i = some c0 ∧
        f1.get? j = some c1 ∧ sqrtLt (sqDist c0 c1) md = true ∧
        e = ⟨t0 + k, i, j, sqDist (addPt c0 drift) c1 / md ^ 2⟩ := by
  induction frames generalizing t0 with
  | nil => simp [buildGraphEdges]
  | cons f0 rest ih =>
    cases rest with
    | nil =>
      simp only [buildGraphEdges, List.not_mem_nil, false_iff]
      rintro ⟨k, g0, g1, i, c0, j, c1, hg0, hg1, -, -, -, -⟩
      cases k with
      | zero => simp at hg1
      | succ k => simp at hg0
    | cons f1 rest' =>
      rw [buildGraphEdges]
      constructor
      · intro h
        rcases List.mem_append.mp h with h | h
        · obtain ⟨i, c0, j, c1, hget0, hget1, hg, he⟩ := mem_rowEdges_iff.mp h
          exact ⟨0, f0, f1, i, c0, j, c1, rfl, rfl, by simpa using hget0, hget1,
            hg, by simpa using he⟩
        · obtain ⟨k, g0, g1, i, c0, j, c1, hg0, hg1, hc0, hc1, hg', he⟩ := ih.mp h
          exact ⟨k + 1, g0, g1, i, c0, j, c1, by simpa using hg0,
            by simpa using hg1, hc0, hc1, hg', by rw [he]; congr 1; omega⟩
      · rintro ⟨k, g0, g1, i, c0, j, c1, hg0, hg1, hc0, hc1, hg', he⟩
        cases k with
        | zero =>
          simp only [List.get?_cons_zero, Option.some.injEq] at hg0
          simp only [List.get?_cons_succ, List.get?_cons_zero,
            Option.some.injEq] at hg1
          subst hg0; subst hg1
          refine List.mem_append.mpr (Or.inl ?_)
          refine mem_rowEdges_iff.mpr ⟨i, c0, j, c1, by simpa using hc0, hc1, hg', ?_⟩
          rw [he]; congr 1; omega
        | succ k =>
          refine List.mem_append.mpr (Or.inr ?_)
          refine ih.mpr ⟨k, g0, g1, i, c0, j, c1, by simpa using hg0,
            by simpa using hg1, hc0, hc1, hg', ?_⟩
          rw [he]; congr 1; omega

/-- C5, as stated, is false on the code: the claim says the edge gate uses the
*drift-corrected* centroid distance, but `build_graph` gates on the
*uncorrected* distance (`np.linalg.norm(_c0 - _c1) < max_distance`) and only
the weight is drift-corrected.  Concretely: frames `[[(0,0)], [(4,0)]]`,
`max_distance = 5`, `drift = (10,0)` — the uncorrected distance is `4 < 5`, so
an edge is produced, yet the drift-corrected distance is `6 ≥ 5` (squared:
`36 ≥ 25`), so by the claim no edge should exist. -/
theorem C5_counterexample :
    build_graph [[((0 : ℚ), 0)], [(4, 0)]] 5 (10, 0) =
        [⟨0, 0, 0, 36 / 25⟩] ∧
      sqrtLt (sqDist (addPt ((0 : ℚ), 0) (10, 0)) ((4 : ℚ), 0)) 5 = false := by
  constructor
  · show (rowEdges 5 (10, 0) 0 0 [((0 : ℚ), 0)] [((4 : ℚ), 0)] ++ []) = _
    rw [rowEdges, rowEdges, colEdges, colEdges]
    rw [if_pos (by norm_num [sqrtLt, sqDist])]
    simp only [List.append_nil, List.nil_append, List.singleton_append,
      List.cons.injEq, and_true]
    norm_num [sqDist, addPt]
  · norm_num [sqrtLt, sqDist, addPt]

/-- C5 (amended) — `build_graph` adds the edge `(t, i, j)` exactly when the
*uncorrected* centroid distance is strictly below `max_distance`; the edge's
weight is the *drift-corrected* distance divided by `max_distance`
(`weightSq = sqDist(c0 + drift, c1) / max_distance²`), and it is nonnegative
whenever the matrix of squared distances is (always, in exact arithmetic). -/
theorem C5_build_graph_edges (frames : List (List (ℚ × ℚ))) (md : ℚ)
    (drift : ℚ × ℚ) (t i j : ℕ) (f0 f1 : List (ℚ × ℚ)) (c0 c1 : ℚ × ℚ)
    (hf0 : frames.get? t = some f0) (hf1 : frames.get? (t + 1) = some f1)
    (hc0 : f0.get? i = some c0) (hc1 : f1.get? j = some c1) :
    ((⟨t, i, j, sqDist (addPt c0 drift) c1 / md ^ 2⟩ : GraphEdge) ∈
        build_graph frames md drift ↔ sqrtLt (sqDist c0 c1) md = true) ∧
      ∀ e ∈ build_graph frames md drift,
        ∃ c0' c1', 0 ≤ e.weightSq ∧
          e.weightSq = sqDist (addPt c0' drift) c1' / md ^ 2 ∧
          sqrtLt (sqDist c0' c1') md = true := by
  constructor
  · rw [build_graph, mem_buildGraphEdges_iff]
    constructor
    · rintro ⟨k, g0, g1, i', c0', j', c1', hg0, hg1, hc0', hc1', hg', he⟩
      rw [GraphEdge.mk.injEq] at he
      obtain ⟨ht, hi, hj, -⟩ := he
      have hk : k = t := by omega
      subst hk
      subst hi
      subst hj
      have hgf : g0 = f0 := Option.some.inj (hg0.symm.trans hf0)
      have hgf1 : g1 = f1 := Option.some.inj (hg1.symm.trans hf1)
      subst hgf
      subst hgf1
      have hcc0 : c0' = c0 := Option.some.inj (hc0'.symm.trans hc0)
      have hcc1 : c1' = c1 := Option.some.inj (hc1'.symm.trans hc1)
      subst hcc0
      subst hcc1
      exact hg'
    · intro hg
      exact ⟨t, f0, f1, i, c0, j, c1, by simpa using hf0, hf1, hc0, hc1, hg,
        by simp⟩
  · intro e he
    rw [build_graph, mem_buildGraphEdges_iff] at he
    obtain ⟨k, g0, g1, i', c0', j', c1', hg0, hg1, hc0', hc1', hg', he⟩ := he
    refine ⟨c0', c1', ?_, by rw [he], hg'⟩
    rw [he]
    refine div_nonneg ?_ (by positivity)
    have := sq_nonneg ((addPt c0' drift).1 - c1'.1)
    have := sq_nonneg ((addPt c0' drift).2 - c1'.2)
    rw [sqDist]
    positivity

/-- Witness for C5 at the two-frame instance `[[(0,0)], [(4,0)]]`,
`max_distance = 5`, `drift = (0,0)`. -/
theorem C5_build_graph_edges_witness :
    ((⟨0, 0, 0, sqDist (addPt ((0 : ℚ), 0) ((0 : ℚ), 0)) ((4 : ℚ), 0) / 5 ^ 2⟩ :
        GraphEdge) ∈ build_graph [[((0 : ℚ), 0)], [(4, 0)]] 5 (0, 0) ↔
      sqrtLt (sqDist ((0 : ℚ), 0) ((4 : ℚ), 0)) 5 = true) ∧
      ∀ e ∈ build_graph [[((0 : ℚ), 0)], [(4, 0)]] 5 (0, 0),
        ∃ c0' c1', 0 ≤ e.weightSq ∧
          e.weightSq = sqDist (addPt c0' ((0 : ℚ), 0)) c1' / 5 ^ 2 ∧
          sqrtLt (sqDist c0' c1') 5 = true :=
  C5_build_graph_edges [[((0 : ℚ), 0)], [(4, 0)]] 5 (0, 0) 0 0 0
    [((0 : ℚ), 0)] [((4 : ℚ), 0)] ((0 : ℚ), 0) ((4 : ℚ), 0) rfl rfl rfl rfl

/-! ## The ILP of the closed network-flow variant (`graph2ilp_flow`, exercise3.py)

The candidate graph is passed to `graph2ilp_flow` as integer node ids
`0, …, V-1` and a list of directed edges; the decision vector `x` concatenates
edge indicators (`x[0:E]`), node indicators (`x[E:E+V]`) and flow-edge
indicators (`x[E+V:E+V+E_flow]`).  The matrix `A0` (edge consistency) has one
row per candidate edge: `A0[k, k] = 2`, `A0[k, E+u] = A0[k, E+v] = -1` for
edge `k = (u, v)` (assigning, not incrementing: a self-loop would write `-1`
once), all other entries `0`.  Feasibility requires `A0 @ x <= 0` rowwise. -/

/-- Row `k` of the `A0` edge-consistency constraint matrix built by
`graph2ilp_flow` (all weights are integers, so entries are modelled in `ℤ`). -/
def A0entry (edges : List (ℕ × ℕ)) (k c : ℕ) : ℤ :=
  match edges.get? k with
  | none => 0
  | some (u, v) =>
    if c = k then 2
    else if c = edges.length + u ∨ c = edges.length + v then -1
    else 0

/-- Dot product of a constraint row with the decision vector over the
`E + V + E_flow` columns. -/
def rowDot (row x : ℕ → ℤ) (len : ℕ) : ℤ :=
  ∑ c ∈ Finset.range len, row c * x c

/-- The decision variables are boolean (`cp.Variable(..., boolean=True)`). -/
def boolVec (x : ℕ → ℤ) : Prop := ∀ c, x c = 0 ∨ x c = 1

/-- The `A0 @ x <= 0` block of the constraint system of `graph2ilp_flow`
(`graph2ilp_nodiv` and `graph2ilp_div` build the identical block). -/
def feasA0 (edges : List (ℕ × ℕ)) (V Eflow : ℕ) (x : ℕ → ℤ) : Prop :=
  ∀ k < edges.length, rowDot (A0entry edges k) x (edges.length + V + Eflow) ≤ 0

lemma rowDot_A0 (edges : List (ℕ × ℕ)) (V Eflow : ℕ) (x : ℕ → ℤ)
    (k : ℕ) (u v : ℕ) (hk : edges.get? k = some (u, v))
    (hu : u < V) (hv : v < V) (huv : u ≠ v) :
    rowDot (A0entry edges k) x (edges.length + V + Eflow) =
      2 * x k - x (edges.length + u) - x (edges.length + v) := by
  have hkE : k < edges.length := List.get?_eq_some.mp hk |>.1
  rw [rowDot]
  have hsplit : ∀ c, A0entry edges k c * x c =
      (if c = k then 2 * x c else 0) +
        ((if c = edges.length + u then -x c else 0) +
          (if c = edges.length + v then -x c else 0)) := by
    intro c
    simp only [A0entry, hk]
    split_ifs <;> first | ring1 | (exfalso; omega)
  rw [Finset.sum_congr rfl fun c _ => hsplit c]
  rw [Finset.sum_add_distrib, Finset.sum_add_distrib]
  have hkmem : k ∈ Finset.range (edges.length + V + Eflow) :=
    Finset.mem_range.mpr (by omega)
  have humem : edges.length + u ∈ Finset.range (edges.length + V + Eflow) :=
    Finset.mem_range.mpr (by omega)
  have hvmem : edges.length + v ∈ Finset.range (edges.length + V + Eflow) :=
    Finset.mem_range.mpr (by omega)
  rw [Finset.sum_ite_eq' _ k (fun c => 2 * x c),
    Finset.sum_ite_eq' _ (edges.length + u) (fun c => -x c),
    Finset.sum_ite_eq' _ (edges.length + v) (fun c => -x c)]
  rw [if_pos hkmem, if_pos humem, if_pos hvmem]
  ring

/-- C7 — every decision vector satisfying the `A0 @ x <= 0` block of
`graph2ilp_flow` (hence every feasible ILP solution) satisfies edge
consistency: for the `k`-th candidate edge `(u, v)`,
`2·x_e(k) - x_v(u) - x_v(v) ≤ 0`, so an edge can be selected only if both of
its endpoint nodes are.  (For a hypothetical self-loop `u = v` the built row
is `2·x_e(k) - x_v(u) ≤ 0`, which still implies the stated inequality since
`x` is boolean.) -/
theorem C7_edge_consistency (edges : List (ℕ × ℕ)) (V Eflow : ℕ)
    (x : ℕ → ℤ) (hnodes : ∀ p ∈ edges, p.1 < V ∧ p.2 < V)
    (hbool : boolVec x) (hfeas : feasA0 edges V Eflow x)
    (k : ℕ) (u v : ℕ) (hk : edges.get? k = some (u, v)) :
    2 * x k - x (edges.length + u) - x (edges.length + v) ≤ 0 := by
  have hkE : k < edges.length := List.get?_eq_some.mp hk |>.1
  have hmem : (u, v) ∈ edges := List.get?_mem hk
  obtain ⟨hu, hv⟩ := hnodes (u, v) hmem
  have hfk := hfeas k hkE
  by_cases huv : u = v
  · subst huv
    have hdot : rowDot (A0entry edges k) x (edges.length + V + Eflow) =
        2 * x k - x (edges.length + u) := by
      rw [rowDot]
      have hsplit : ∀ c, A0entry edges k c * x c =
          (if c = k then 2 * x c else 0) +
            (if c = edges.length + u then -x c else 0) := by
        intro c
        simp only [A0entry, hk]
        split_ifs <;> first | ring1 | (exfalso; omega)
      rw [Finset.sum_congr rfl fun c _ => hsplit c, Finset.sum_add_distrib]
      rw [Finset.sum_ite_eq' _ k (fun c => 2 * x c),
        Finset.sum_ite_eq' _ (edges.length + u) (fun c => -x c)]
      rw [if_pos (Finset.mem_range.mpr (by omega : k < edges.length + V + Eflow)),
        if_pos (Finset.mem_range.mpr
          (by omega : edges.length + u < edges.length + V + Eflow))]
      ring
    rw [hdot] at hfk
    rcases hbool (edges.length + u) with h | h <;> omega
  · rw [rowDot_A0 edges V Eflow x k u v hk hu hv huv] at hfk
    exact hfk

/-- Witness for C7: `V = 2`, one edge `(0, 1)`, no flow edges, `x = 0`. -/
theorem C7_edge_consistency_witness :
    2 * (fun _ : ℕ => (0 : ℤ)) 0 -
        (fun _ : ℕ => (0 : ℤ)) ([((0 : ℕ), (1 : ℕ))].length + 0) -
        (fun _ : ℕ => (0 : ℤ)) ([((0 : ℕ), (1 : ℕ))].length + 1) ≤ 0 :=
  C7_edge_consistency [(0, 1)] 2 0 (fun _ => 0)
    (by intro p hp; simp at hp; simp [hp]) (fun c => Or.inl rfl)
    (by
      intro k hk
      simp only [List.length_singleton] at hk
      have hk0 : k = 0 := by omega
      subst hk0
      rw [rowDot_A0 [(0, 1)] 2 0 (fun _ => 0) 0 0 1 rfl (by omega) (by omega)
        (by omega)]
      simp)
    0 0 1 rfl

/-! ## Flow augmentation of `graph2ilp_flow` (closed variant)

`graph2ilp_flow` builds `graph_flow`, adding a synthetic `appear` and `death`
node, and for every candidate-graph node `n` with time attribute `time`:
`if time == 0`: edge `("appear", n, weight=0)`;
`elif time == len(detections) - 1`: edge `(n, "death", weight=0)`.
`len(detections)` is the *global* frame count of the notebook, modelled here
as the parameter `T`. -/

/-- Endpoints of flow edges: the two synthetic nodes or a candidate node. -/
inductive FlowNode where
  | appear
  | death
  | node (n : ℕ)
deriving DecidableEq

/-- The flow edges added by `graph2ilp_flow` for a candidate graph whose nodes
(with their `time` attributes) are `nodes`, over `T = len(detections)` frames. -/
def flowEdges (nodes : List (ℕ × ℕ)) (T : ℕ) : List (FlowNode × FlowNode × ℚ) :=
  nodes.flatMap fun p =>
    if p.2 = 0 then [(FlowNode.appear, FlowNode.node p.1, (0 : ℚ))]
    else if p.2 = T - 1 then [(FlowNode.node p.1, FlowNode.death, (0 : ℚ))]
    else []

lemma nodupKeys_time_eq (nodes : List (ℕ × ℕ))
    (hkeys : (nodes.map Prod.fst).Nodup) (n t t' : ℕ)
    (h : (n, t) ∈ nodes) (h' : (n, t') ∈ nodes) : t = t' := by
  induction nodes with
  | nil => exact absurd h (List.not_mem_nil _)
  | cons q rest ih =>
    rw [List.map_cons, List.nodup_cons] at hkeys
    obtain ⟨hq, hrest⟩ := hkeys
    rcases List.mem_cons.mp h with heq | h2
    · rcases List.mem_cons.mp h' with heq' | h2'
      · rw [← heq] at heq'
        exact (congrArg Prod.snd heq'.symm)
      · have hnq : n = q.1 := congrArg Prod.fst heq
        refine absurd (List.mem_map.mpr ⟨(n, t'), h2', ?_⟩) hq
        exact hnq
    · rcases List.mem_cons.mp h' with heq' | h2'
      · have hnq : n = q.1 := congrArg Prod.fst heq'
        refine absurd (List.mem_map.mpr ⟨(n, t), h2, ?_⟩) hq
        exact hnq
      · exact ih hrest h2 h2'

/-- C8 — in the closed-flow variant, `appear` is connected by a zero-weight
edge to exactly the candidate-graph nodes with time `0`, exactly the nodes of
the last frame (`time = T - 1`) are connected to `death`, no flow edge touches
an interior-frame node, and every flow edge has weight `0` (stated for a
sequence of at least two frames and a graph whose node ids are unique). -/
theorem C8_flow_edges_exact (nodes : List (ℕ × ℕ)) (T : ℕ) (hT : 2 ≤ T)
    (hkeys : (nodes.map Prod.fst).Nodup) :
    (∀ n t, (n, t) ∈ nodes →
        (((FlowNode.appear, FlowNode.node n, (0 : ℚ)) ∈ flowEdges nodes T) ↔
          t = 0)) ∧
      (∀ n t, (n, t) ∈ nodes →
        (((FlowNode.node n, FlowNode.death, (0 : ℚ)) ∈ flowEdges nodes T) ↔
          t = T - 1)) ∧
      (∀ n t, (n, t) ∈ nodes → 0 < t → t < T - 1 →
        ∀ e ∈ flowEdges nodes T, e.1 ≠ FlowNode.node n ∧
          e.2.1 ≠ FlowNode.node n) ∧
      (∀ e ∈ flowEdges nodes T, e.2.2 = 0) := by
  have hmem : ∀ e, e ∈ flowEdges nodes T ↔
      ∃ p ∈ nodes, (p.2 = 0 ∧ e = (FlowNode.appear, FlowNode.node p.1, (0 : ℚ))) ∨
        (p.2 ≠ 0 ∧ p.2 = T - 1 ∧
          e = (FlowNode.node p.1, FlowNode.death, (0 : ℚ))) := by
    intro e
    rw [flowEdges, List.mem_flatMap]
    constructor
    · rintro ⟨p, hp, hmem⟩
      by_cases h0 : p.2 = 0
      · rw [if_pos h0] at hmem
        simp only [List.mem_singleton] at hmem
        exact ⟨p, hp, Or.inl ⟨h0, hmem⟩⟩
      · rw [if_neg h0] at hmem
        by_cases h1 : p.2 = T - 1
        · rw [if_pos h1] at hmem
          simp only [List.mem_singleton] at hmem
          exact ⟨p, hp, Or.inr ⟨h0, h1, hmem⟩⟩
        · rw [if_neg h1] at hmem
          exact absurd hmem (List.not_mem_nil e)
    · rintro ⟨p, hp, ⟨h0, he⟩ | ⟨h0, h1, he⟩⟩
      · exact ⟨p, hp, by rw [if_pos h0, he]; exact List.mem_singleton.mpr rfl⟩
      · exact ⟨p, hp, by rw [if_neg h0, if_pos h1, he]; exact List.mem_singleton.mpr rfl⟩
  have huniq : ∀ n t t', (n, t) ∈ nodes → (n, t') ∈ nodes → t = t' :=
    fun n t t' h h' => nodupKeys_time_eq nodes hkeys n t t' h h'
  refine ⟨?_, ?_, ?_, ?_⟩
  · intro n t hnt
    constructor
    · intro hin
      obtain ⟨⟨pn, pt⟩, hp, h⟩ := (hmem _).mp hin
      rcases h with ⟨h0, he⟩ | ⟨-, -, he⟩
      · simp only [Prod.mk.injEq, FlowNode.node.injEq] at he
        obtain ⟨-, hn, -⟩ := he
        subst hn
        exact (huniq n t pt hnt hp).trans h0
      · simp at he
    · intro ht
      exact (hmem _).mpr ⟨(n, t), hnt, Or.inl ⟨ht, rfl⟩⟩
  · intro n t hnt
    constructor
    · intro hin
      obtain ⟨⟨pn, pt⟩, hp, h⟩ := (hmem _).mp hin
      rcases h with ⟨-, he⟩ | ⟨-, h1, he⟩
      · simp at he
      · simp only [Prod.mk.injEq, FlowNode.node.injEq] at he
        obtain ⟨hn, -, -⟩ := he
        subst hn
        exact (huniq n t pt hnt hp).trans h1
    · intro ht
      refine (hmem _).mpr ⟨(n, t), hnt, Or.inr ⟨?_, ht, rfl⟩⟩
      omega
  · intro n t hnt ht0 ht1 e he
    obtain ⟨⟨pn, pt⟩, hp, h⟩ := (hmem _).mp he
    rcases h with ⟨h0, he'⟩ | ⟨-, h1, he'⟩
    · subst he'
      refine ⟨by simp, ?_⟩
      simp only [ne_eq, FlowNode.node.injEq]
      intro hn
      rw [hn] at hp
      exact absurd ((huniq n t pt hnt hp).trans h0) (by omega)
    · subst he'
      refine ⟨?_, by simp⟩
      simp only [ne_eq, FlowNode.node.injEq]
      intro hn
      rw [hn] at hp
      exact absurd ((huniq n t pt hnt hp).trans h1) (by omega)
  · intro e he
    obtain ⟨⟨pn, pt⟩, hp, h⟩ := (hmem _).mp he
    rcases h with ⟨-, he'⟩ | ⟨-, -, he'⟩ <;> subst he' <;> rfl

/-- Witness for C8: two nodes, node `0` at time `0` and node `1` at time `1`,
over `T = 2` frames. -/
theorem C8_flow_edges_exact_witness :
    (∀ n t, (n, t) ∈ [(0, 0), (1, 1)] →
        (((FlowNode.appear, FlowNode.node n, (0 : ℚ)) ∈
            flowEdges [(0, 0), (1, 1)] 2) ↔ t = 0)) ∧
      (∀ n t, (n, t) ∈ [(0, 0), (1, 1)] →
        (((FlowNode.node n, FlowNode.death, (0 : ℚ)) ∈
            flowEdges [(0, 0), (1, 1)] 2) ↔ t = 2 - 1)) ∧
      (∀ n t, (n, t) ∈ [(0, 0), (1, 1)] → 0 < t → t < 2 - 1 →
        ∀ e ∈ flowEdges [(0, 0), (1, 1)] 2, e.1 ≠ FlowNode.node n ∧
          e.2.1 ≠ FlowNode.node n) ∧
      (∀ e ∈ flowEdges [(0, 0), (1, 1)] 2, e.2.2 = 0) :=
  C8_flow_edges_exact [(0, 0), (1, 1)] 2 (by decide) (by decide)

/-! ## `FrameByFrameLinker._assert_links` and `FrameByFrameLinker.link`

`_assert_links` raises `RuntimeError`s built from f-strings; each constructor
of `LinkError` records exactly the values interpolated into the corresponding
message:

* `formatError` — `"Format of links[...] not correct."` (no interpolation);
* `notAssigned0 time` — `f"Some detections in frame {time} are not properly
  assigned as either linked or death."`;
* `notAssigned1 (time+1)` — `f"Some detections in frame {time+1} are not
  properly assigned as either linked or birth."`;
* `birthLinked (time+1) b` — `f"Links frame {time+1}: Detection {b} marked as
  birth, but also linked."`;
* `deathLinked time d` — `f"Links frame {time}: Detection {d} marked as death,
  but also linked."`. -/

inductive LinkError where
  | formatError
  | notAssigned0 (frame : ℕ)
  | notAssigned1 (frame : ℕ)
  | birthLinked (frame : ℕ) (detId : ℕ)
  | deathLinked (frame : ℕ) (detId : ℕ)
deriving DecidableEq

/-- The frame index interpolated into the error message, if any. -/
def LinkError.frameIndex : LinkError → Option ℕ
  | .formatError => none
  | .notAssigned0 f => some f
  | .notAssigned1 f => some f
  | .birthLinked f _ => some f
  | .deathLinked f _ => some f

/-- The detection ids interpolated into the error message. -/
def LinkError.offendingIds : LinkError → List ℕ
  | .birthLinked _ i => [i]
  | .deathLinked _ i => [i]
  | _ => []

/-- Python `sorted` on a list of ids. -/
def pySorted (l : List ℕ) : List ℕ := l.insertionSort (· ≤ ·)

/-- `FrameByFrameLinker._assert_links(links, time, detections0, detections1)`
(exercise1.py lines 589–605): the four checks, in source order. -/
def assertLinks (r : LinkResult) (time : ℕ) (det0 det1 : List ℤ) :
    Except LinkError Unit :=
  if r.idsFrom.length ≠ r.idsTo.length then .error .formatError
  else if pySorted (r.idsFrom ++ r.deaths) ≠
      List.range' 1 (uniqueCount det0 - 1) then
    .error (.notAssigned0 time)
  else if pySorted (r.idsTo ++ r.births) ≠
      List.range' 1 (uniqueCount det1 - 1) then
    .error (.notAssigned1 (time + 1))
  else
    match r.births.find? (fun b => decide (b ∈ r.idsTo)) with
    | some b => .error (.birthLinked (time + 1) b)
    | none =>
      match r.deaths.find? (fun d => decide (d ∈ r.idsFrom)) with
      | some d => .error (.deathLinked time d)
      | none => .ok ()

/-- Errors surfaced by `FrameByFrameLinker.link`: `ValueError` from
`_assert_relabeled` or `RuntimeError` from `_assert_links`. -/
inductive TrackError where
  | valueErr (msg : String)
  | linkErr (e : LinkError)
deriving DecidableEq

/-- The loop of `FrameByFrameLinker.link` (exercise1.py lines 483–494) from
frame-pair index `i` on: assert both frames relabeled, produce the pair's
linking result, validate it with `_assert_links(links=li, time=i, …)`, and
collect the results.  The abstract `linking_cost_function` /
`_link_two_frames` pair supplied by a subclass is abstracted as the function
`linker` from two frames to a linking result. -/
def linkFrom (linker : List ℤ → List ℤ → LinkResult) :
    ℕ → List (List ℤ) → Except TrackError (List LinkResult)
  | _, [] => .ok []
  | _, [_] => .ok []
  | i, d0 :: d1 :: rest => do
    (assertRelabeled d0).mapError TrackError.valueErr
    (assertRelabeled d1).mapError TrackError.valueErr
    let li := linker d0 d1
    (assertLinks li i d0 d1).mapError TrackError.linkErr
    let tail ← linkFrom linker (i + 1) (d1 :: rest)
    return li :: tail

/-- `FrameByFrameLinker.link(detections)` (images omitted — the `None` path). -/
def link (linker : List ℤ → List ℤ → LinkResult) (dets : List (List ℤ)) :
    Except TrackError (List LinkResult) :=
  linkFrom linker 0 dets

/-- Maximum label of a frame (`x.max()` of a frame with nonnegative labels). -/
def maxNat (x : List ℤ) : ℕ := (x.max?.getD 0).toNat

/-- The label set of a well-formed frame: `1, …, max`. -/
def labelRange (x : List ℤ) : List ℕ := List.range' 1 (maxNat x)

/-- The Linking-Result partition invariant (spec §3): linked-from ids and
deaths partition the labels of frame `t` (each used exactly once), and
linked-to ids and births partition the labels of frame `t+1`. -/
def linksInvariant (r : LinkResult) (det0 det1 : List ℤ) : Prop :=
  (r.idsFrom ++ r.deaths).Perm (labelRange det0) ∧
    (r.idsTo ++ r.births).Perm (labelRange det1)

instance (r : LinkResult) (det0 det1 : List ℤ) :
    Decidable (linksInvariant r det0 det1) := by
  unfold linksInvariant
  infer_instance

lemma sorted_range' (s n : ℕ) : (List.range' s n).Sorted (· ≤ ·) :=
  (List.pairwise_lt_range' s n 1 (by omega)).imp le_of_lt

lemma nodup_range'_one (s n : ℕ) : (List.range' s n).Nodup :=
  (List.pairwise_lt_range' s n 1 (by omega)).imp ne_of_lt

lemma pySorted_eq_iff_perm {l r : List ℕ} (hr : r.Sorted (· ≤ ·)) :
    pySorted l = r ↔ l.Perm r := by
  constructor
  · intro h
    exact (List.perm_insertionSort (· ≤ ·) l).symm.trans (h ▸ List.Perm.refl _)
  · intro h
    refine List.eq_of_perm_of_sorted ?_ ?_ hr
    · exact (List.perm_insertionSort (· ≤ ·) l).trans h
    · exact List.sorted_insertionSort (· ≤ ·) l

lemma uniqueCount_of_ok_bg {x : List ℤ} (hok : assertRelabeled x = .ok ())
    (hbg : (0 : ℤ) ∈ x) : uniqueCount x = maxNat x + 1 := by
  have hne : x ≠ [] := List.ne_nil_of_mem hbg
  obtain ⟨mx, hmx⟩ := max?_isSome_of_ne_nil hne
  obtain ⟨-, h0, -⟩ := (assertRelabeled_ok_iff hne hmx).mp hok
  have hcard := h0 hbg
  have hmx0 : 0 ≤ mx := (max?_int_spec hmx).2 0 hbg
  rw [maxNat, hmx]
  simp only [Option.getD_some]
  omega

/-- `_assert_links` accepts exactly the results satisfying the partition
invariant, for well-formed frames (contiguous labels, background present) and
a well-formed links tuple. -/
lemma assertLinks_ok_iff {r : LinkResult} {time : ℕ} {det0 det1 : List ℤ}
    (hfmt : r.idsFrom.length = r.idsTo.length)
    (h0 : assertRelabeled det0 = .ok ()) (hbg0 : (0 : ℤ) ∈ det0)
    (h1 : assertRelabeled det1 = .ok ()) (hbg1 : (0 : ℤ) ∈ det1) :
    assertLinks r time det0 det1 = .ok () ↔ linksInvariant r det0 det1 := by
  have hU0 : uniqueCount det0 - 1 = maxNat det0 := by
    rw [uniqueCount_of_ok_bg h0 hbg0]
    omega
  have hU1 : uniqueCount det1 - 1 = maxNat det1 := by
    rw [uniqueCount_of_ok_bg h1 hbg1]
    omega
  rw [assertLinks, if_neg (by omega)]
  rw [hU0, hU1]
  by_cases hc0 : pySorted (r.idsFrom ++ r.deaths) = List.range' 1 (maxNat det0)
  · rw [if_neg (fun h => h hc0)]
    by_cases hc1 : pySorted (r.idsTo ++ r.births) = List.range' 1 (maxNat det1)
    · rw [if_neg (fun h => h hc1)]
      have hperm0 := (pySorted_eq_iff_perm (sorted_range' 1 (maxNat det0))).mp hc0
      have hperm1 := (pySorted_eq_iff_perm (sorted_range' 1 (maxNat det1))).mp hc1
      have hnd1 : (r.idsTo ++ r.births).Nodup :=
        hperm1.symm.nodup (nodup_range'_one 1 (maxNat det1))
      have hnd0 : (r.idsFrom ++ r.deaths).Nodup :=
        hperm0.symm.nodup (nodup_range'_one 1 (maxNat det0))
      obtain ⟨-, -, hdisj1⟩ := List.nodup_append.mp hnd1
      obtain ⟨-, -, hdisj0⟩ := List.nodup_append.mp hnd0
      have hf1 : r.births.find? (fun b => decide (b ∈ r.idsTo)) = none := by
        rw [List.find?_eq_none]
        intro b hb
        simp only [decide_eq_true_eq]
        exact fun hmem => hdisj1 hmem hb
      have hf0 : r.deaths.find? (fun d => decide (d ∈ r.idsFrom)) = none := by
        rw [List.find?_eq_none]
        intro d hd
        simp only [decide_eq_true_eq]
        exact fun hmem => hdisj0 hmem hd
      rw [hf1, hf0]
      exact iff_of_true rfl ⟨hperm0, hperm1⟩
    · rw [if_pos hc1]
      refine iff_of_false (by simp) ?_
      rintro ⟨-, hp1⟩
      exact hc1 ((pySorted_eq_iff_perm (sorted_range' 1 (maxNat det1))).mpr hp1)
  · rw [if_pos hc0]
    refine iff_of_false (by simp) ?_
    rintro ⟨hp0, -⟩
    exact hc0 ((pySorted_eq_iff_perm (sorted_range' 1 (maxNat det0))).mpr hp0)

/-- Whenever `_assert_links` raises on a well-formed links tuple, the error is
one of the four frame-carrying ones, and the frame it names is `time` or
`time + 1`. -/
lemma assertLinks_error_frame {r : LinkResult} {time : ℕ} {det0 det1 : List ℤ}
    {e : LinkError} (hfmt : r.idsFrom.length = r.idsTo.length)
    (he : assertLinks r time det0 det1 = .error e) :
    e.frameIndex = some time ∨ e.frameIndex = some (time + 1) := by
  rw [assertLinks, if_neg (by omega)] at he
  by_cases hc0 : pySorted (r.idsFrom ++ r.deaths) =
      List.range' 1 (uniqueCount det0 - 1)
  · rw [if_neg (fun h => h hc0)] at he
    by_cases hc1 : pySorted (r.idsTo ++ r.births) =
        List.range' 1 (uniqueCount det1 - 1)
    · rw [if_neg (fun h => h hc1)] at he
      cases hf1 : r.births.find? (fun b => decide (b ∈ r.idsTo)) with
      | some b =>
        rw [hf1] at he
        cases he
        right; rfl
      | none =>
        rw [hf1] at he
        cases hf0 : r.deaths.find? (fun d => decide (d ∈ r.idsFrom)) with
        | some d =>
          rw [hf0] at he
          cases he
          left; rfl
        | none =>
          rw [hf0] at he
          exact absurd he (by simp)
    · rw [if_pos hc1] at he
      cases he
      right; rfl
  · rw [if_pos hc0] at he
    cases he
    left; rfl

instance instDecEqExcept {e a : Type} [DecidableEq e] [DecidableEq a] :
    DecidableEq (Except e a) := fun x y =>
  match x, y with
  | .ok x1, .ok y1 =>
    if h : x1 = y1 then .isTrue (by rw [h])
    else .isFalse (fun he => h (Except.ok.inj he))
  | .error x1, .error y1 =>
    if h : x1 = y1 then .isTrue (by rw [h])
    else .isFalse (fun he => h (Except.error.inj he))
  | .ok _, .error _ => .isFalse (fun he => Except.noConfusion he)
  | .error _, .ok _ => .isFalse (fun he => Except.noConfusion he)

lemma linkFrom_error (linker : List ℤ → List ℤ → LinkResult) (t : ℕ)
    (dets : List (List ℤ))
    (hwf : ∀ d ∈ dets, assertRelabeled d = .ok () ∧ (0 : ℤ) ∈ d)
    (hfmt : ∀ d0 d1, (linker d0 d1).idsFrom.length = (linker d0 d1).idsTo.length)
    (i : ℕ) (d0 d1 : List ℤ)
    (h0 : dets.get? i = some d0) (h1 : dets.get? (i + 1) = some d1)
    (hviol : ¬ linksInvariant (linker d0 d1) d0 d1)
    (hprev : ∀ k < i, ∀ e0 e1, dets.get? k = some e0 →
      dets.get? (k + 1) = some e1 → linksInvariant (linker e0 e1) e0 e1) :
    ∃ e, linkFrom linker t dets = .error (.linkErr e) ∧
      (e.frameIndex = some (t + i) ∨ e.frameIndex = some (t + i + 1)) := by
  induction i generalizing t dets with
  | zero =>
    match dets with
    | [] => simp at h0
    | [a] => simp at h1
    | a :: b :: rest =>
      simp only [List.get?_cons_zero, Option.some.injEq] at h0
      simp only [List.get?_cons_succ, List.get?_cons_zero,
        Option.some.injEq] at h1
      subst h0; subst h1
      obtain ⟨hokA, hbgA⟩ := hwf a (List.mem_cons_self _ _)
      obtain ⟨hokB, hbgB⟩ := hwf b (List.mem_cons.mpr
        (Or.inr (List.mem_cons_self _ _)))
      have hne : assertLinks (linker a b) t a b ≠ .ok () := fun hok =>
        hviol ((assertLinks_ok_iff (hfmt a b) hokA hbgA hokB hbgB).mp hok)
      cases hAL : assertLinks (linker a b) t a b with
      | ok u => cases u; exact absurd hAL hne
      | error e =>
        refine ⟨e, ?_, by simpa using assertLinks_error_frame (hfmt a b) hAL⟩
        simp only [linkFrom, hokA, hokB, hAL, Except.mapError, Except.bind,
          bind]
  | succ i ih =>
    match dets with
    | [] => simp at h0
    | [a] =>
      rw [List.get?_cons_succ] at h0
      simp at h0
    | a :: b :: rest =>
      rw [List.get?_cons_succ] at h0 h1
      obtain ⟨hokA, hbgA⟩ := hwf a (List.mem_cons_self _ _)
      obtain ⟨hokB, hbgB⟩ := hwf b (List.mem_cons.mpr
        (Or.inr (List.mem_cons_self _ _)))
      have hinv0 : linksInvariant (linker a b) a b :=
        hprev 0 (Nat.succ_pos i) a b rfl rfl
      have hAL : assertLinks (linker a b) t a b = .ok () :=
        (assertLinks_ok_iff (hfmt a b) hokA hbgA hokB hbgB).mpr hinv0
      obtain ⟨e, hrec, hframe⟩ := ih (t + 1) (b :: rest)
        (fun d hd => hwf d (List.mem_cons.mpr (Or.inr hd))) h0 h1
        (fun k hk e0 e1 hk0 hk1 =>
          hprev (k + 1) (by omega) e0 e1 (by simpa using hk0)
            (by simpa using hk1))
      refine ⟨e, ?_, by
        rcases hframe with h | h
        · left; rw [h]; congr 1; omega
        · right; rw [h]; congr 1; omega⟩
      simp only [linkFrom, hokA, hokB, hAL, Except.mapError, Except.bind,
        bind, hrec]

/-- C2, as stated, is false on the code: with frames `[0,1,2]` and `[0,1]`
and the linking result `{"links": ([1],[1]), "births": [], "deaths": []}`,
detection `2` of frame `0` is neither linked nor a death — the partition
invariant is violated — and `link` raises
`RuntimeError("Some detections in frame 0 are not properly assigned as either
linked or death.")`, which names the frame index but *no* offending id
(`offendingIds` of the raised error is empty). -/
theorem C2_counterexample :
    (¬ linksInvariant ⟨[1], [1], [], []⟩ [0, 1, 2] [0, 1]) ∧
      (2 ∈ labelRange [0, 1, 2] ∧
        2 ∉ (⟨[1], [1], [], []⟩ : LinkResult).idsFrom ∧
        2 ∉ (⟨[1], [1], [], []⟩ : LinkResult).deaths) ∧
      link (fun _ _ => ⟨[1], [1], [], []⟩) [[0, 1, 2], [0, 1]] =
        .error (.linkErr (.notAssigned0 0)) ∧
      LinkError.offendingIds (.notAssigned0 0) = [] := by
  exact ⟨by decide, by decide, by decide, rfl⟩

/-- C2 (amended) — `link` validates each produced linking result with
`_assert_links(…, time=i, …)`: at the first adjacent pair whose result
violates the partition invariant, it raises a `RuntimeError` whose message
names the offending frame index (`i` or `i+1`).  The offending ids appear in
the message only in the marked-as-both branches of `_assert_links`, which the
completeness checks running before them make unreachable — so the invariant
violation errors identify the frame but not the ids. -/
theorem C2_link_validation (linker : List ℤ → List ℤ → LinkResult)
    (dets : List (List ℤ))
    (hwf : ∀ d ∈ dets, assertRelabeled d = .ok () ∧ (0 : ℤ) ∈ d)
    (hfmt : ∀ d0 d1, (linker d0 d1).idsFrom.length = (linker d0 d1).idsTo.length)
    (i : ℕ) (d0 d1 : List ℤ)
    (h0 : dets.get? i = some d0) (h1 : dets.get? (i + 1) = some d1)
    (hviol : ¬ linksInvariant (linker d0 d1) d0 d1)
    (hprev : ∀ k < i, ∀ e0 e1, dets.get? k = some e0 →
      dets.get? (k + 1) = some e1 → linksInvariant (linker e0 e1) e0 e1) :
    ∃ e, link linker dets = .error (.linkErr e) ∧
      (e.frameIndex = some i ∨ e.frameIndex = some (i + 1)) := by
  have h := linkFrom_error linker 0 dets hwf hfmt i d0 d1 h0 h1 hviol hprev
  simpa [link] using h

/-- Witness for C2 (amended) at the counterexample instance. -/
theorem C2_link_validation_witness :
    ∃ e, link (fun _ _ => ⟨[1], [1], [], []⟩) [[0, 1, 2], [0, 1]] =
        .error (.linkErr e) ∧
      (e.frameIndex = some 0 ∨ e.frameIndex = some (0 + 1)) :=
  C2_link_validation (fun _ _ => ⟨[1], [1], [], []⟩) [[0, 1, 2], [0, 1]]
    (by decide) (fun _ _ => rfl) 0 [0, 1, 2] [0, 1] rfl rfl (by decide)
    (fun k hk => absurd hk (Nat.not_lt_zero k))

/-! ## `FrameByFrameLinker.relabel_detections` (exercise1.py lines 535–587)

Lookup tables (Python dicts) are modelled as functions `ℕ → Option ℕ` built by
overwriting updates, matching dict assignment semantics.  The numpy slice
assignment `new_frame[detections[i+1] == _to] = value` is the pixelwise
`writeLabel`.  The Python function keeps the lookup tables internal and
returns only the stacked frames; the model returns the lookup tables alongside
the frames so that the identifier bookkeeping can be specified. -/

/-- `new_frame[detections == target] = v` on flat frames. -/
def writeLabel (det : List ℤ) (target : ℕ) (v : ℕ) (frame : List ℤ) : List ℤ :=
  List.zipWith (fun dpx fpx => if dpx = (target : ℤ) then (v : ℤ) else fpx)
    det frame

/-- Dict assignment `lut[k] = v`. -/
def lutInsert (lut : ℕ → Option ℕ) (k v : ℕ) : ℕ → Option ℕ :=
  fun x => if x = k then some v else lut x

/-- The `for _from, _to in zip(ids_from, ids_to)` loop: copy over the id from
the previous lookup table (`KeyError` when `_from` is missing). -/
def applyLinks (detNext : List ℤ) (prevLut : ℕ → Option ℕ) :
    List (ℕ × ℕ) → List ℤ × (ℕ → Option ℕ) →
    Except String (List ℤ × (ℕ → Option ℕ))
  | [], st => .ok st
  | (f, t) :: ps, (frame, lut) =>
    match prevLut f with
    | none => .error "KeyError in lookup_tables"
    | some v =>
      applyLinks detNext prevLut ps (writeLabel detNext t v frame, lutInsert lut t v)

/-- The `for b in births` loop: skip births that are also deaths of the next
transition, otherwise allocate the next track id. -/
def applyBirths (detNext : List ℤ) (deathsNext : List ℕ) :
    List ℕ → List ℤ × (ℕ → Option ℕ) × ℕ → List ℤ × (ℕ → Option ℕ) × ℕ
  | [], st => st
  | b :: bs, (frame, lut, n) =>
    if b ∈ deathsNext then applyBirths detNext deathsNext bs (frame, lut, n)
    else
      applyBirths detNext deathsNext bs
        (writeLabel detNext b (n + 1) frame, lutInsert lut b (n + 1), n + 1)

/-- Deaths of the next transition:
`links[i+1]["deaths"] if i+1 < len(links) else []`. -/
def nextDeathsL (lrest : List LinkResult) (j : ℕ) : List ℕ :=
  match lrest.get? (j + 1) with
  | some l2 => l2.deaths
  | none => []

/-- The main loop of `relabel_detections`, from the second frame on.  Returns
the relabeled frames, the per-frame lookup tables, and the final track
counter. -/
def relabelGo :
    List (List ℤ) → List LinkResult → (ℕ → Option ℕ) → ℕ →
    Except String (List (List ℤ) × List (ℕ → Option ℕ) × ℕ)
  | _, [], _, n => .ok ([], [], n)
  | [], _ :: _, _, _ => .error "len(detections) - 1 == len(links) failed"
  | dNext :: dRest, l :: lrest, prevLut, n => do
    let deathsNext := match lrest with
      | [] => []
      | l2 :: _ => l2.deaths
    (assertRelabeled dNext)
    let (frame, lut) ← applyLinks dNext prevLut (l.idsFrom.zip l.idsTo)
      (dNext.map (fun _ => 0), fun _ => none)
    match applyBirths dNext deathsNext l.births (frame, lut, n) with
    | (frame2, lut2, n2) => do
      let (frames, luts, n3) ← relabelGo dRest lrest lut2 n2
      return (frame2 :: frames, lut2 :: luts, n3)

/-- The identity lookup table seeded from frame 0
(`{i: i for i in range(1, out[0].max() + 1)}`). -/
def frame0Lut (d0 : List ℤ) : ℕ → Option ℕ :=
  fun k => if 1 ≤ k ∧ k ≤ maxNat d0 then some k else none

/-- `FrameByFrameLinker.relabel_detections(detections, links)`. -/
def relabel_detections (dets : List (List ℤ)) (links : List LinkResult) :
    Except String (List (List ℤ) × List (ℕ → Option ℕ)) :=
  match dets with
  | [] => .error "len(detections) - 1 == len(links) failed"
  | d0 :: rest =>
    if rest.length ≠ links.length then
      .error "len(detections) - 1 == len(links) failed"
    else do
      assertRelabeled d0
      let (frames, luts, _) ← relabelGo rest links (frame0Lut d0) (maxNat d0)
      return (d0 :: frames, frame0Lut d0 :: luts)

lemma writeLabel_get? {det frame : List ℤ} {target v : ℕ} {idx : ℕ}
    {dv px : ℤ} (hd : det.get? idx = some dv) (hf : frame.get? idx = some px) :
    (writeLabel det target v frame).get? idx =
      some (if dv = (target : ℤ) then (v : ℤ) else px) := by
  induction det generalizing frame idx with
  | nil => simp at hd
  | cons d ds ih =>
    cases frame with
    | nil => simp at hf
    | cons p ps =>
      cases idx with
      | zero =>
        simp only [List.get?_cons_zero, Option.some.injEq] at hd hf
        subst hd; subst hf
        rfl
      | succ idx =>
        simp only [List.get?_cons_succ] at hd hf
        simpa [writeLabel] using ih hd hf

lemma writeLabel_length {det frame : List ℤ} {target v : ℕ} :
    (writeLabel det target v frame).length = min det.length frame.length := by
  simp [writeLabel]

lemma applyLinks_spec {detNext : List ℤ} {prevLut : ℕ → Option ℕ}
    (pairs : List (ℕ × ℕ)) (frame : List ℤ) (lut : ℕ → Option ℕ)
    (hsome : ∀ p ∈ pairs, (prevLut p.1).isSome) :
    ∃ frame' lut',
      applyLinks detNext prevLut pairs (frame, lut) = .ok (frame', lut') ∧
      (∀ x, x ∉ pairs.map Prod.snd → lut' x = lut x) ∧
      ((pairs.map Prod.snd).Nodup → ∀ p ∈ pairs,
        ∃ v, prevLut p.1 = some v ∧ lut' p.2 = some v) ∧
      (∀ x v, lut' x = some v → lut x = some v ∨ ∃ f, prevLut f = some v) ∧
      (∀ idx px dv, frame.get? idx = some px → detNext.get? idx = some dv →
        (∀ p ∈ pairs, dv ≠ (p.2 : ℤ)) → frame'.get? idx = some px) ∧
      (frame.length = detNext.length → frame'.length = detNext.length) := by
  induction pairs generalizing frame lut with
  | nil =>
    exact ⟨frame, lut, rfl, fun x _ => rfl, fun _ p hp => absurd hp
      (List.not_mem_nil p), fun x v hv => Or.inl hv,
      fun idx px dv hf _ _ => hf, fun h => h ▸ rfl⟩
  | cons p ps ih =>
    obtain ⟨f0, t0⟩ := p
    have hsome0 : (prevLut f0).isSome := hsome (f0, t0) (List.mem_cons_self _ _)
    cases hv0 : prevLut f0 with
    | none => rw [hv0] at hsome0; simp at hsome0
    | some v0 =>
      obtain ⟨frame', lut', hok, hunt, hpairs, hprov, hpix, hlen⟩ :=
        ih (writeLabel detNext t0 v0 frame) (lutInsert lut t0 v0)
          (fun q hq => hsome q (List.mem_cons.mpr (Or.inr hq)))
      refine ⟨frame', lut', ?_, ?_, ?_, ?_, ?_, ?_⟩
      · rw [applyLinks, hv0]
        exact hok
      · intro x hx
        rw [List.map_cons, List.mem_cons] at hx
        push_neg at hx
        rw [hunt x hx.2, lutInsert, if_neg hx.1]
      · intro hnd q hq
        rw [List.map_cons, List.nodup_cons] at hnd
        rcases List.mem_cons.mp hq with rfl | hq'
        · refine ⟨v0, hv0, ?_⟩
          rw [hunt t0 hnd.1, lutInsert, if_pos rfl]
        · exact hpairs hnd.2 q hq'
      · intro x v hv
        rcases hprov x v hv with h | h
        · rw [lutInsert] at h
          by_cases hx : x = t0
          · rw [if_pos hx] at h
            exact Or.inr ⟨f0, hv0.trans (congrArg some (Option.some.inj h).symm ▸ rfl)⟩
          · rw [if_neg hx] at h
            exact Or.inl h
        · exact Or.inr h
      · intro idx px dv hf hd hne
        refine hpix idx px dv ?_ hd
          (fun q hq => hne q (List.mem_cons.mpr (Or.inr hq)))
        rw [writeLabel_get? hd hf,
          if_neg (hne (f0, t0) (List.mem_cons_self _ _))]
      · intro h
        refine hlen ?_
        rw [writeLabel_length, h, min_self]

lemma applyBirths_spec {detNext : List ℤ} {deathsNext : List ℕ}
    (births : List ℕ) (frame : List ℤ) (lut : ℕ → Option ℕ) (n : ℕ) :
    ∃ frame' lut' n',
      applyBirths detNext deathsNext births (frame, lut, n) =
        (frame', lut', n') ∧
      n ≤ n' ∧
      (∀ x, x ∉ births → lut' x = lut x) ∧
      (births.Nodup → ∀ b ∈ births, b ∉ deathsNext →
        ∃ v, lut' b = some v ∧ n < v ∧ v ≤ n') ∧
      (∀ b, b ∈ deathsNext → lut' b = lut b) ∧
      (∀ x v, lut' x = some v → lut x = some v ∨ (n < v ∧ v ≤ n')) ∧
      (∀ idx px dv, frame.get? idx = some px → detNext.get? idx = some dv →
        (∀ b ∈ births, b ∉ deathsNext → dv ≠ (b : ℤ)) →
        frame'.get? idx = some px) ∧
      (frame.length = detNext.length → frame'.length = detNext.length) := by
  induction births generalizing frame lut n with
  | nil =>
    exact ⟨frame, lut, n, rfl, le_refl n, fun x _ => rfl,
      fun _ b hb => absurd hb (List.not_mem_nil b), fun b _ => rfl,
      fun x v hv => Or.inl hv, fun idx px dv hf _ _ => hf, fun h => h ▸ rfl⟩
  | cons b bs ih =>
    by_cases hbd : b ∈ deathsNext
    · obtain ⟨frame', lut', n', hok, hle, hunt, hfresh, hdeaths, hprov, hpix,
        hlen⟩ := ih frame lut n
      refine ⟨frame', lut', n', ?_, hle, ?_, ?_, hdeaths, hprov, ?_, hlen⟩
      · rw [applyBirths, if_pos hbd]
        exact hok
      · intro x hx
        exact hunt x (fun hx' => hx (List.mem_cons.mpr (Or.inr hx')))
      · intro hnd b' hb' hb'd
        rcases List.mem_cons.mp hb' with rfl | hb''
        · exact absurd hbd hb'd
        · exact hfresh (List.nodup_cons.mp hnd).2 b' hb'' hb'd
      · intro idx px dv hf hd hne
        exact hpix idx px dv hf hd
          (fun b' hb' => hne b' (List.mem_cons.mpr (Or.inr hb')))
    · obtain ⟨frame', lut', n', hok, hle, hunt, hfresh, hdeaths, hprov, hpix,
        hlen⟩ := ih (writeLabel detNext b (n + 1) frame) (lutInsert lut b (n + 1))
        (n + 1)
      refine ⟨frame', lut', n', ?_, by omega, ?_, ?_, ?_, ?_, ?_, ?_⟩
      · rw [applyBirths, if_neg hbd]
        exact hok
      · intro x hx
        rw [List.mem_cons] at hx
        push_neg at hx
        rw [hunt x hx.2, lutInsert, if_neg hx.1]
      · intro hnd b' hb' hb'd
        obtain ⟨hb_notin, hbs_nd⟩ := List.nodup_cons.mp hnd
        rcases List.mem_cons.mp hb' with rfl | hb''
        · refine ⟨n + 1, ?_, by omega, by omega⟩
          rw [hunt b' hb_notin, lutInsert, if_pos rfl]
        · obtain ⟨v, hv, hlt, hle'⟩ := hfresh hbs_nd b' hb'' hb'd
          exact ⟨v, hv, by omega, hle'⟩
      · intro d hd
        rw [hdeaths d hd, lutInsert,
          if_neg (fun he : d = b => hbd (he ▸ hd))]
      · intro x v hv
        rcases hprov x v hv with h | h
        · rw [lutInsert] at h
          by_cases hx : x = b
          · rw [if_pos hx] at h
            have : v = n + 1 := (Option.some.inj h).symm
            subst this
            exact Or.inr ⟨by omega, by omega⟩
          · rw [if_neg hx] at h
            exact Or.inl h
        · exact Or.inr ⟨by omega, h.2⟩
      · intro idx px dv hf hd hne
        refine hpix idx px dv ?_ hd
          (fun b' hb' => hne b' (List.mem_cons.mpr (Or.inr hb')))
        rw [writeLabel_get? hd hf,
          if_neg (hne b (List.mem_cons_self _ _) hbd)]
      · intro h
        refine hlen ?_
        rw [writeLabel_length, h, min_self]

lemma getD_stable {α : Type} {l : List α} {j : ℕ} (h : j < l.length)
    (d1 d2 : α) : l.getD j d1 = l.getD j d2 := by
  induction l generalizing j with
  | nil => simp at h
  | cons x xs ih =>
    cases j with
    | zero => rfl
    | succ j => simpa using ih (by simpa using h)

lemma getD_of_get? {α : Type} {l : List α} {j : ℕ} {a : α}
    (h : l.get? j = some a) (d : α) : l.getD j d = a := by
  induction l generalizing j with
  | nil => simp at h
  | cons x xs ih =>
    cases j with
    | zero =>
      simp only [List.get?_cons_zero, Option.some.injEq] at h
      simpa using h
    | succ j =>
      simp only [List.get?_cons_succ] at h
      simpa using ih h

/-- The lookup table of the frame preceding transition `j`: `prevLut` for the
first transition, the table built at transition `j-1` otherwise. -/
def predLutAt (luts : List (ℕ → Option ℕ)) (prevLut : ℕ → Option ℕ) :
    ℕ → ℕ → Option ℕ
  | 0 => prevLut
  | j + 1 => luts.getD j prevLut

/-- The track counter before transition `j`. -/
def nsPredAt (ns : List ℕ) (n : ℕ) : ℕ → ℕ
  | 0 => n
  | j + 1 => ns.getD j n

lemma relabelGo_spec :
    ∀ (dRest : List (List ℤ)) (lrest : List LinkResult)
      (prevLut : ℕ → Option ℕ) (n : ℕ),
    dRest.length = lrest.length →
    (∀ d ∈ dRest, assertRelabeled d = .ok ()) →
    (∀ l ∈ lrest, l.idsFrom.length = l.idsTo.length) →
    (∀ k l d, lrest.get? (k + 1) = some l → dRest.get? k = some d →
      (l.idsFrom ++ l.deaths).Perm (labelRange d)) →
    (∀ k l d, lrest.get? k = some l → dRest.get? k = some d →
      (l.idsTo ++ l.births).Perm (labelRange d)) →
    (∀ k v, prevLut k = some v → v ≤ n) →
    (∀ l, lrest.get? 0 = some l → ∀ f ∈ l.idsFrom, (prevLut f).isSome) →
    ∃ frames luts ns nFinal,
      relabelGo dRest lrest prevLut n = .ok (frames, luts, nFinal) ∧
      frames.length = lrest.length ∧ luts.length = lrest.length ∧
      ns.length = lrest.length ∧
      n ≤ nFinal ∧
      (∀ j, j < ns.length →
        nsPredAt ns n j ≤ ns.getD j n ∧ ns.getD j n ≤ nFinal) ∧
      (∀ j lut, luts.get? j = some lut → ∀ k v, lut k = some v →
        v ≤ ns.getD j n) ∧
      (∀ j l lut, lrest.get? j = some l → luts.get? j = some lut →
        (∀ p ∈ l.idsFrom.zip l.idsTo,
          ∃ v, predLutAt luts prevLut j p.1 = some v ∧ lut p.2 = some v) ∧
        (∀ b ∈ l.births, b ∉ nextDeathsL lrest j →
          ∃ v, lut b = some v ∧ nsPredAt ns n j < v ∧ v ≤ ns.getD j n) ∧
        (∀ b ∈ l.births, b ∈ nextDeathsL lrest j → lut b = none)) ∧
      (∀ j l fr d, lrest.get? j = some l → frames.get? j = some fr →
        dRest.get? j = some d → ∀ b ∈ l.births, b ∈ nextDeathsL lrest j →
        ∀ idx px, d.get? idx = some px → px = (b : ℤ) →
        fr.get? idx = some 0) := by
  intro dRest lrest
  induction lrest generalizing dRest with
  | nil =>
    intro prevLut n _ _ _ _ _ _ _
    refine ⟨[], [], [], n, by cases dRest <;> rfl, rfl, rfl, rfl, le_refl n,
      ?_, ?_, ?_, ?_⟩
    · intro j hj; simp at hj
    · intro j lut h; simp at h
    · intro j l lut h; simp at h
    · intro j l fr d h; simp at h
  | cons l lrest' ih =>
    intro prevLut n hlen hwf hfmt hinv1 hinv2 hbound hcov
    match dRest, hlen with
    | dNext :: dRest', hlen =>
    have hlen' : dRest'.length = lrest'.length := by simpa using hlen
    have hA : assertRelabeled dNext = .ok () := hwf dNext (List.mem_cons_self _ _)
    have hinv2_0 : (l.idsTo ++ l.births).Perm (labelRange dNext) :=
      hinv2 0 l dNext rfl rfl
    have hnd2 : (l.idsTo ++ l.births).Nodup :=
      hinv2_0.symm.nodup (nodup_range'_one 1 (maxNat dNext))
    obtain ⟨hndTo, hndB, hdisjTB⟩ := List.nodup_append.mp hnd2
    have hfmt0 : l.idsFrom.length = l.idsTo.length :=
      hfmt l (List.mem_cons_self _ _)
    have hmapsnd : (l.idsFrom.zip l.idsTo).map Prod.snd = l.idsTo :=
      List.map_snd_zip _ _ (le_of_eq hfmt0.symm)
    have hndSnd : ((l.idsFrom.zip l.idsTo).map Prod.snd).Nodup := by
      rw [hmapsnd]
      exact hndTo
    have hsndTo : ∀ x, x ∈ (l.idsFrom.zip l.idsTo).map Prod.snd ↔
        x ∈ l.idsTo := fun x => by rw [hmapsnd]
    have hsome : ∀ p ∈ l.idsFrom.zip l.idsTo, (prevLut p.1).isSome :=
      fun p hp => hcov l rfl p.1 (List.of_mem_zip hp).1
    obtain ⟨frame, lut, hLok, hLunt, hLpairs, hLprov, hLpix, hLlen⟩ :=
      @applyLinks_spec dNext prevLut (l.idsFrom.zip l.idsTo)
        (dNext.map (fun _ => 0)) (fun _ => none) hsome
    obtain ⟨frame2, lut2, n2, hBok, hBle, hBunt, hBfresh, hBdeaths, hBprov,
      hBpix, hBlen⟩ :=
      @applyBirths_spec dNext (nextDeathsL (l :: lrest') 0)
        l.births frame lut n
    have hbound2 : ∀ k v, lut2 k = some v → v ≤ n2 := by
      intro k v hv
      rcases hBprov k v hv with h | h
      · rcases hLprov k v h with h' | ⟨f, hf⟩
        · exact absurd h' (by simp)
        · exact le_trans (hbound f v hf) hBle
      · exact h.2
    have hlutTo : ∀ x ∈ l.idsTo, (lut2 x).isSome := by
      intro x hx
      obtain ⟨p, hp, hpsnd⟩ := List.mem_map.mp ((hsndTo x).mpr hx)
      obtain ⟨v, -, hlv⟩ := hLpairs hndSnd p hp
      have hxb : x ∉ l.births := fun hb => hdisjTB hx hb
      rw [hBunt x hxb, ← hpsnd, hlv]
      rfl
    have hcov2 : ∀ l2, lrest'.get? 0 = some l2 →
        ∀ f ∈ l2.idsFrom, (lut2 f).isSome := by
      intro l2 hl2 f hf
      have hinv1_0 : (l2.idsFrom ++ l2.deaths).Perm (labelRange dNext) :=
        hinv1 0 l2 dNext (by simpa using hl2) rfl
      have hnd1 : (l2.idsFrom ++ l2.deaths).Nodup :=
        hinv1_0.symm.nodup (nodup_range'_one 1 (maxNat dNext))
      obtain ⟨-, -, hdisjFD⟩ := List.nodup_append.mp hnd1
      have hfmem : f ∈ labelRange dNext :=
        hinv1_0.mem_iff.mp (List.mem_append_left _ hf)
      have hfnd : f ∉ l2.deaths := fun hd => hdisjFD hf hd
      have hdncur : nextDeathsL (l :: lrest') 0 = l2.deaths := by
        simp only [nextDeathsL, List.get?_cons_succ, hl2]
      rcases List.mem_append.mp (hinv2_0.mem_iff.mpr hfmem) with hTo | hB
      · exact hlutTo f hTo
      · obtain ⟨v, hv, -, -⟩ := hBfresh hndB f hB (hdncur ▸ hfnd)
        rw [hv]
        rfl
    obtain ⟨frames', luts', ns', nF, hrec, hflen', hllen', hnslen', hnF,
      hchain', hlbound', hmain', hpixrec'⟩ :=
      ih dRest' lut2 n2 hlen'
        (fun d hd => hwf d (List.mem_cons.mpr (Or.inr hd)))
        (fun l3 hl3 => hfmt l3 (List.mem_cons.mpr (Or.inr hl3)))
        (fun k l3 d3 h1 h2 => hinv1 (k + 1) l3 d3 (by simpa using h1)
          (by simpa using h2))
        (fun k l3 d3 h1 h2 => hinv2 (k + 1) l3 d3 (by simpa using h1)
          (by simpa using h2))
        hbound2 hcov2
    have heq : relabelGo (dNext :: dRest') (l :: lrest') prevLut n =
        .ok (frame2 :: frames', lut2 :: luts', nF) := by
      cases lrest' with
      | nil =>
        simp only [nextDeathsL, List.get?_cons_succ, List.get?_nil] at hBok
        simp only [relabelGo, hA, hLok, hBok, hrec, Except.bind, bind,
          pure, Except.pure]
      | cons l2 tail =>
        simp only [nextDeathsL, List.get?_cons_succ, List.get?_cons_zero]
          at hBok
        simp only [relabelGo, hA, hLok, hBok, hrec, Except.bind, bind,
          pure, Except.pure]
    refine ⟨frame2 :: frames', lut2 :: luts', n2 :: ns', nF, heq,
      by simpa using hflen', by simpa using hllen', by simpa using hnslen',
      le_trans hBle hnF, ?_, ?_, ?_, ?_⟩
    · intro j hj
      cases j with
      | zero =>
        refine ⟨hBle, ?_⟩
        simpa using hnF
      | succ j =>
        have hj' : j < ns'.length := by simpa using hj
        obtain ⟨h1, h2⟩ := hchain' j hj'
        constructor
        · cases j with
          | zero =>
            have hstab : ns'.getD 0 n = ns'.getD 0 n2 := getD_stable hj' n n2
            simp only [nsPredAt, List.getD_cons_succ, List.getD_cons_zero,
              hstab]
            simpa [nsPredAt] using h1
          | succ j' =>
            have hj'' : j' < ns'.length := by omega
            simp only [nsPredAt, List.getD_cons_succ]
            rw [getD_stable hj'' n n2]
            simp only [nsPredAt] at h1
            rw [getD_stable hj' n n2]
            exact h1
        · rw [List.getD_cons_succ, getD_stable hj' n n2]
          exact h2
    · intro j lut3 h3
      cases j with
      | zero =>
        simp only [List.get?_cons_zero, Option.some.injEq] at h3
        subst h3
        simpa using hbound2
      | succ j =>
        rw [List.get?_cons_succ] at h3
        have hj' : j < ns'.length := by
          rw [hnslen', ← hllen']
          exact (List.get?_eq_some.mp h3).1
        rw [List.getD_cons_succ, getD_stable hj' n n2]
        exact hlbound' j lut3 h3
    · intro j l3 lut3 hl3 hlut3
      cases j with
      | zero =>
        simp only [List.get?_cons_zero, Option.some.injEq] at hl3 hlut3
        subst hl3; subst hlut3
        refine ⟨?_, ?_, ?_⟩
        · intro p hp
          obtain ⟨v, hpv, hlv⟩ := hLpairs hndSnd p hp
          have hpTo : p.2 ∈ l.idsTo := (List.of_mem_zip hp).2
          have hpb : p.2 ∉ l.births := fun hb => hdisjTB hpTo hb
          exact ⟨v, hpv, by rw [hBunt p.2 hpb]; exact hlv⟩
        · intro b hb hbd
          obtain ⟨v, hv, hlt, hle⟩ := hBfresh hndB b hb hbd
          exact ⟨v, hv, hlt, by simpa using hle⟩
        · intro b hb hbd
          rw [hBdeaths b hbd]
          have hbTo : b ∉ l.idsTo := fun hTo => hdisjTB hTo hb
          rw [hLunt b (fun hmem => hbTo ((hsndTo b).mp hmem))]
      | succ j =>
        rw [List.get?_cons_succ] at hl3 hlut3
        have hjlt : j < lrest'.length := (List.get?_eq_some.mp hl3).1
        obtain ⟨hp1, hp2, hp3⟩ := hmain' j l3 lut3 hl3 hlut3
        refine ⟨?_, ?_, ?_⟩
        · intro p hp
          obtain ⟨v, hv1, hv2⟩ := hp1 p hp
          refine ⟨v, ?_, hv2⟩
          cases j with
          | zero =>
            simpa [predLutAt] using hv1
          | succ j' =>
            have hj'lt : j' < luts'.length := by
              rw [hllen']; omega
            simp only [predLutAt, List.getD_cons_succ]
            rw [getD_stable hj'lt prevLut lut2]
            simpa [predLutAt] using hv1
        · intro b hb hbd
          have hbd' : b ∉ nextDeathsL lrest' j := by
            simpa [nextDeathsL] using hbd
          obtain ⟨v, hv, hlt, hle⟩ := hp2 b hb hbd'
          refine ⟨v, hv, ?_, ?_⟩
          · cases j with
            | zero =>
              simpa [nsPredAt] using hlt
            | succ j' =>
              have hj'lt : j' < ns'.length := by
                rw [hnslen']; omega
              simp only [nsPredAt, List.getD_cons_succ]
              rw [getD_stable hj'lt n n2]
              simpa [nsPredAt] using hlt
          · have hjns : j < ns'.length := by rw [hnslen']; exact hjlt
            rw [List.getD_cons_succ, getD_stable hjns n n2]
            exact hle
        · intro b hb hbd
          refine hp3 b hb ?_
          simpa [nextDeathsL] using hbd
    · intro j l3 fr d hl3 hfr hd b hb hbd idx px hpx hpxb
      cases j with
      | zero =>
        simp only [List.get?_cons_zero, Option.some.injEq] at hl3 hfr hd
        subst hl3; subst hfr; subst hd
        have hidx : idx < dNext.length := (List.get?_eq_some.mp hpx).1
        have hz : (dNext.map (fun _ => (0 : ℤ))).get? idx = some 0 := by
          rw [List.get?_map, hpx]
          rfl
        have hbTo : b ∉ l.idsTo := fun hTo => hdisjTB hTo hb
        have hfr0 : frame.get? idx = some 0 := by
          refine hLpix idx 0 px hz hpx ?_
          intro p hp
          have hpTo : p.2 ∈ l.idsTo := (List.of_mem_zip hp).2
          rw [hpxb]
          intro hc
          have : b = p.2 := Int.ofNat_inj.mp (by exact_mod_cast hc)
          exact hbTo (this ▸ hpTo)
        refine hBpix idx 0 px hfr0 hpx ?_
        intro b' hb' hb'd
        rw [hpxb]
        intro hc
        have : b = b' := Int.ofNat_inj.mp (by exact_mod_cast hc)
        exact hb'd (this ▸ hbd)
      | succ j =>
        rw [List.get?_cons_succ] at hl3 hfr hd
        refine hpixrec' j l3 fr d hl3 hfr hd b hb ?_ idx px hpx hpxb
        simpa [nextDeathsL] using hbd

lemma nsPredAt_mono {ns : List ℕ} {n : ℕ}
    (hchain : ∀ j, j < ns.length → nsPredAt ns n j ≤ ns.getD j n) :
    ∀ i j, i ≤ j → j ≤ ns.length → nsPredAt ns n i ≤ nsPredAt ns n j := by
  intro i j
  induction j with
  | zero =>
    intro hij _
    have hi0 : i = 0 := Nat.le_zero.mp hij
    subst hi0
    exact le_refl _
  | succ j ih =>
    intro hij hj
    rcases Nat.lt_or_ge i (j + 1) with h | h
    · have hstep : nsPredAt ns n j ≤ nsPredAt ns n (j + 1) :=
        hchain j (by omega)
      exact le_trans (ih (by omega) (by omega)) hstep
    · have hi : i = j + 1 := by omega
      subst hi
      exact le_refl _

lemma frame0Lut_bound {d0 : List ℤ} {k v : ℕ}
    (h : frame0Lut d0 k = some v) : v ≤ maxNat d0 := by
  by_cases hc : 1 ≤ k ∧ k ≤ maxNat d0
  · have : frame0Lut d0 k = some k := if_pos hc
    rw [this] at h
    cases h
    exact hc.2
  · have : frame0Lut d0 k = none := if_neg hc
    rw [this] at h
    cases h

lemma mem_labelRange {d : List ℤ} {f : ℕ} :
    f ∈ labelRange d ↔ 1 ≤ f ∧ f ≤ maxNat d := by
  rw [labelRange, List.mem_range'_1]
  omega

lemma relabel_detections_spec (d0 : List ℤ) (dRest : List (List ℤ))
    (links : List LinkResult)
    (hlen : dRest.length = links.length)
    (hwf0 : assertRelabeled d0 = .ok ())
    (hwf : ∀ d ∈ dRest, assertRelabeled d = .ok ())
    (hfmt : ∀ l ∈ links, l.idsFrom.length = l.idsTo.length)
    (hinv1 : ∀ k l d, links.get? k = some l → (d0 :: dRest).get? k = some d →
      (l.idsFrom ++ l.deaths).Perm (labelRange d))
    (hinv2 : ∀ k l d, links.get? k = some l → dRest.get? k = some d →
      (l.idsTo ++ l.births).Perm (labelRange d)) :
    ∃ frames luts ns,
      relabel_detections (d0 :: dRest) links =
        .ok (d0 :: frames, frame0Lut d0 :: luts) ∧
      frames.length = links.length ∧ luts.length = links.length ∧
      ns.length = links.length ∧
      (∀ i j, i ≤ j → j ≤ ns.length →
        nsPredAt ns (maxNat d0) i ≤ nsPredAt ns (maxNat d0) j) ∧
      (∀ j lut, luts.get? j = some lut → ∀ k v, lut k = some v →
        v ≤ nsPredAt ns (maxNat d0) (j + 1)) ∧
      (∀ j l lut, links.get? j = some l → luts.get? j = some lut →
        (∀ p ∈ l.idsFrom.zip l.idsTo,
          ∃ v, predLutAt luts (frame0Lut d0) j p.1 = some v ∧
            lut p.2 = some v) ∧
        (∀ b ∈ l.births, b ∉ nextDeathsL links j →
          ∃ v, lut b = some v ∧ nsPredAt ns (maxNat d0) j < v ∧
            v ≤ nsPredAt ns (maxNat d0) (j + 1)) ∧
        (∀ b ∈ l.births, b ∈ nextDeathsL links j → lut b = none)) ∧
      (∀ j l fr d, links.get? j = some l → frames.get? j = some fr →
        dRest.get? j = some d → ∀ b ∈ l.births, b ∈ nextDeathsL links j →
        ∀ idx px, d.get? idx = some px → px = (b : ℤ) →
        fr.get? idx = some 0) := by
  have hbound : ∀ k v, frame0Lut d0 k = some v → v ≤ maxNat d0 :=
    fun _ _ h => frame0Lut_bound h
  have hcov : ∀ l, links.get? 0 = some l → ∀ f ∈ l.idsFrom,
      (frame0Lut d0 f).isSome := by
    intro l hl f hf
    have hperm : (l.idsFrom ++ l.deaths).Perm (labelRange d0) :=
      hinv1 0 l d0 hl rfl
    have hfmem : f ∈ labelRange d0 :=
      hperm.mem_iff.mp (List.mem_append_left _ hf)
    have hfr : frame0Lut d0 f = some f := if_pos (mem_labelRange.mp hfmem)
    rw [hfr]
    rfl
  obtain ⟨frames, luts, ns, nF, hrec, hflen, hllen, hnslen, -, hchain,
    hlbound, hmain, hpix⟩ :=
    relabelGo_spec dRest links (frame0Lut d0) (maxNat d0) hlen hwf hfmt
      (fun k l d h1 h2 => hinv1 (k + 1) l d h1 (by simpa using h2))
      hinv2 hbound hcov
  have hne : ¬ dRest.length ≠ links.length := by simp [hlen]
  have hok : relabel_detections (d0 :: dRest) links =
      .ok (d0 :: frames, frame0Lut d0 :: luts) := by
    simp only [relabel_detections, if_neg hne, hwf0, hrec, Except.bind,
      bind, pure, Except.pure]
  refine ⟨frames, luts, ns, hok, hflen, hllen, hnslen,
    nsPredAt_mono (fun j hj => (hchain j hj).1), ?_, hmain, hpix⟩
  intro j lut hlut k v hv
  exact hlbound j lut hlut k v hv

/-- C3: after `relabel_detections`, the output lookup tables witness that track
ids are seeded from frame 0 (the identity table on its labels), that every
linked detection inherits its predecessor's identifier, and that every birth
that is not an immediate death receives an identifier strictly greater than
every identifier in every earlier lookup table — so identifiers grow
monotonically and are never reused. -/
theorem C3_relabel_ids_monotone_never_reused
    (d0 : List ℤ) (dRest : List (List ℤ)) (links : List LinkResult)
    (hlen : dRest.length = links.length)
    (hwf0 : assertRelabeled d0 = .ok ())
    (hwf : ∀ d ∈ dRest, assertRelabeled d = .ok ())
    (hfmt : ∀ l ∈ links, l.idsFrom.length = l.idsTo.length)
    (hinv1 : ∀ k l d, links.get? k = some l → (d0 :: dRest).get? k = some d →
      (l.idsFrom ++ l.deaths).Perm (labelRange d))
    (hinv2 : ∀ k l d, links.get? k = some l → dRest.get? k = some d →
      (l.idsTo ++ l.births).Perm (labelRange d)) :
    ∃ outFrames outLuts,
      relabel_detections (d0 :: dRest) links = .ok (outFrames, outLuts) ∧
      outFrames.get? 0 = some d0 ∧
      outLuts.get? 0 = some (frame0Lut d0) ∧
      (∀ k, 1 ≤ k → k ≤ maxNat d0 → frame0Lut d0 k = some k) ∧
      (∀ j l lutp lutc, links.get? j = some l →
        outLuts.get? j = some lutp → outLuts.get? (j + 1) = some lutc →
        (∀ p ∈ l.idsFrom.zip l.idsTo,
          ∃ v, lutp p.1 = some v ∧ lutc p.2 = some v) ∧
        (∀ b ∈ l.births, b ∉ nextDeathsL links j →
          ∃ v, lutc b = some v ∧
            ∀ j' lut' k v', j' ≤ j → outLuts.get? j' = some lut' →
              lut' k = some v' → v' < v)) := by
  obtain ⟨frames, luts, ns, hok, hflen, hllen, hnslen, hmono, hlbound,
    hmain, -⟩ :=
    relabel_detections_spec d0 dRest links hlen hwf0 hwf hfmt hinv1 hinv2
  refine ⟨d0 :: frames, frame0Lut d0 :: luts, hok, rfl, rfl,
    fun k h1 h2 => if_pos ⟨h1, h2⟩, ?_⟩
  intro j l lutp lutc hl hlutp hlutc
  rw [List.get?_cons_succ] at hlutc
  have hjlt : j < links.length := (List.get?_eq_some.mp hl).1
  have hpred : predLutAt luts (frame0Lut d0) j = lutp := by
    cases j with
    | zero =>
      simp only [List.get?_cons_zero, Option.some.injEq] at hlutp
      rw [← hlutp]
      rfl
    | succ j' =>
      rw [List.get?_cons_succ] at hlutp
      exact getD_of_get? hlutp _
  obtain ⟨hpairs, hfresh, -⟩ := hmain j l lutc hl hlutc
  refine ⟨fun p hp => hpred ▸ hpairs p hp, ?_⟩
  intro b hb hbd
  obtain ⟨v, hv, hlt, -⟩ := hfresh b hb hbd
  refine ⟨v, hv, ?_⟩
  intro j' lut' k v' hj' hlut' hv'
  have hjns : j ≤ ns.length := by omega
  cases j' with
  | zero =>
    simp only [List.get?_cons_zero, Option.some.injEq] at hlut'
    subst hlut'
    have h1 : v' ≤ maxNat d0 := frame0Lut_bound hv'
    have h2 : nsPredAt ns (maxNat d0) 0 ≤ nsPredAt ns (maxNat d0) j :=
      hmono 0 j (Nat.zero_le _) hjns
    have h0 : nsPredAt ns (maxNat d0) 0 = maxNat d0 := rfl
    omega
  | succ k' =>
    rw [List.get?_cons_succ] at hlut'
    have h1 : v' ≤ nsPredAt ns (maxNat d0) (k' + 1) :=
      hlbound k' lut' hlut' k v' hv'
    have h2 : nsPredAt ns (maxNat d0) (k' + 1) ≤
        nsPredAt ns (maxNat d0) j := hmono (k' + 1) j hj' hjns
    omega

/-- C3 witness: two frames each holding detection 1, linked 1 → 1; the
relabeling succeeds, frame 0 seeds the identity table, and the conclusions of
the monotonicity theorem hold at this input. -/
theorem C3_relabel_ids_monotone_never_reused_witness :
    ∃ outFrames outLuts,
      relabel_detections [[0, 1], [0, 1]] [⟨[1], [1], [], []⟩] =
        .ok (outFrames, outLuts) ∧
      outFrames.get? 0 = some [0, 1] ∧
      outLuts.get? 0 = some (frame0Lut [0, 1]) ∧
      (∀ k, 1 ≤ k → k ≤ maxNat [0, 1] → frame0Lut [0, 1] k = some k) ∧
      (∀ j l lutp lutc,
        ([⟨[1], [1], [], []⟩] : List LinkResult).get? j = some l →
        outLuts.get? j = some lutp → outLuts.get? (j + 1) = some lutc →
        (∀ p ∈ l.idsFrom.zip l.idsTo,
          ∃ v, lutp p.1 = some v ∧ lutc p.2 = some v) ∧
        (∀ b ∈ l.births, b ∉ nextDeathsL [⟨[1], [1], [], []⟩] j →
          ∃ v, lutc b = some v ∧
            ∀ j' lut' k v', j' ≤ j → outLuts.get? j' = some lut' →
              lut' k = some v' → v' < v)) :=
  C3_relabel_ids_monotone_never_reused [0, 1] [[0, 1]] [⟨[1], [1], [], []⟩]
    rfl (by decide) (by decide) (by decide)
    (by
      intro k l d hk hd
      cases k with
      | zero =>
        cases hk
        cases hd
        decide
      | succ k => simp at hk)
    (by
      intro k l d hk hd
      cases k with
      | zero =>
        cases hk
        cases hd
        decide
      | succ k => simp at hk)

/-- C9: a birth of transition `j` that is also among the deaths of transition
`j+1` is allocated no track identifier (its lookup-table entry is `none`) and
every pixel carrying its label stays background `0` in the relabeled frame:
the one-frame detection is erased from the output entirely. -/
theorem C9_spurious_birth_erased
    (d0 : List ℤ) (dRest : List (List ℤ)) (links : List LinkResult)
    (hlen : dRest.length = links.length)
    (hwf0 : assertRelabeled d0 = .ok ())
    (hwf : ∀ d ∈ dRest, assertRelabeled d = .ok ())
    (hfmt : ∀ l ∈ links, l.idsFrom.length = l.idsTo.length)
    (hinv1 : ∀ k l d, links.get? k = some l → (d0 :: dRest).get? k = some d →
      (l.idsFrom ++ l.deaths).Perm (labelRange d))
    (hinv2 : ∀ k l d, links.get? k = some l → dRest.get? k = some d →
      (l.idsTo ++ l.births).Perm (labelRange d)) :
    ∃ outFrames outLuts,
      relabel_detections (d0 :: dRest) links = .ok (outFrames, outLuts) ∧
      ∀ j l, links.get? j = some l →
        ∀ b ∈ l.births, b ∈ nextDeathsL links j →
        (∀ lut, outLuts.get? (j + 1) = some lut → lut b = none) ∧
        (∀ fr d, outFrames.get? (j + 1) = some fr →
          dRest.get? j = some d → ∀ idx px, d.get? idx = some px →
          px = (b : ℤ) → fr.get? idx = some 0) := by
  obtain ⟨frames, luts, ns, hok, hflen, hllen, hnslen, hmono, hlbound,
    hmain, hpix⟩ :=
    relabel_detections_spec d0 dRest links hlen hwf0 hwf hfmt hinv1 hinv2
  refine ⟨d0 :: frames, frame0Lut d0 :: luts, hok, ?_⟩
  intro j l hl b hb hbd
  constructor
  · intro lut hlut
    rw [List.get?_cons_succ] at hlut
    exact (hmain j l lut hl hlut).2.2 b hb hbd
  · intro fr d hfr hd idx px hpx hpxb
    rw [List.get?_cons_succ] at hfr
    exact hpix j l fr d hl hfr hd b hb hbd idx px hpx hpxb

/-- C9 witness: three frames where detection 2 appears only in the middle
frame (a birth of transition 0 and a death of transition 1); the relabeling
succeeds and the erasure conclusions hold at this input. -/
theorem C9_spurious_birth_erased_witness :
    ∃ outFrames outLuts,
      relabel_detections [[0, 1], [0, 1, 2], [0, 1]]
        [⟨[1], [1], [2], []⟩, ⟨[1], [1], [], [2]⟩] =
        .ok (outFrames, outLuts) ∧
      ∀ j l, ([⟨[1], [1], [2], []⟩, ⟨[1], [1], [], [2]⟩] :
          List LinkResult).get? j = some l →
        ∀ b ∈ l.births,
          b ∈ nextDeathsL [⟨[1], [1], [2], []⟩, ⟨[1], [1], [], [2]⟩] j →
        (∀ lut, outLuts.get? (j + 1) = some lut → lut b = none) ∧
        (∀ fr d, outFrames.get? (j + 1) = some fr →
          ([[0, 1, 2], [0, 1]] : List (List ℤ)).get? j = some d →
          ∀ idx px, d.get? idx = some px →
          px = (b : ℤ) → fr.get? idx = some 0) :=
  C9_spurious_birth_erased [0, 1] [[0, 1, 2], [0, 1]]
    [⟨[1], [1], [2], []⟩, ⟨[1], [1], [], [2]⟩]
    rfl (by decide) (by decide) (by decide)
    (by
      intro k l d hk hd
      cases k with
      | zero =>
        cases hk
        cases hd
        decide
      | succ k =>
        cases k with
        | zero =>
          cases hk
          cases hd
          decide
        | succ k => simp at hk)
    (by
      intro k l d hk hd
      cases k with
      | zero =>
        cases hk
        cases hd
        decide
      | succ k =>
        cases k with
        | zero =>
          cases hk
          cases hd
          decide
        | succ k => simp at hk)

/-! ### `BipartiteMatchingLinker._link_two_frames` (Jaqaman assignment)

The preamble of `_link_two_frames` is given code: `b` and `d` are the birth
and death costs (`factor * min(threshold, cost_matrix.max())`) and `no_link`
is the sentinel `max(cost_matrix.max(), max(b, d)) * 1e9`.  The assignment
solver itself is left as an exercise stub in the source, so the square
`(m+n) x (m+n)` Jaqaman matrix, the exact minimisation over perfect
matchings and the decoding are modelled from the specification:
`solveAssignment` minimises the assignment cost over all permutation lists.
`numpy`'s `cost_matrix.max()` raises `ValueError` on an empty array, which
the model reflects by returning `none` when `m = 0` or `n = 0`. -/

def matMax (m n : ℕ) (D : ℕ → ℕ → ℚ) : ℚ :=
  ((List.product (List.range m) (List.range n)).map
    (fun p => D p.1 p.2)).foldl max (D 0 0)

/-- `b = self.birth_cost_factor * min(self.threshold, cost_matrix.max())`. -/
def b_cost (m n : ℕ) (D : ℕ → ℕ → ℚ) (τ bf : ℚ) : ℚ :=
  bf * min τ (matMax m n D)

/-- `d = self.death_cost_factor * min(self.threshold, cost_matrix.max())`. -/
def d_cost (m n : ℕ) (D : ℕ → ℕ → ℚ) (τ df : ℚ) : ℚ :=
  df * min τ (matMax m n D)

/-- `no_link = max(cost_matrix.max(), max(b, d)) * 1e9`. -/
def no_link (m n : ℕ) (D : ℕ → ℕ → ℚ) (τ bf df : ℚ) : ℚ :=
  max (matMax m n D) (max (b_cost m n D τ bf) (d_cost m n D τ df)) *
    1000000000

/-- The augmented square Jaqaman matrix: thresholded costs top-left, death
diagonal top-right, birth diagonal bottom-left, zero bottom-right. -/
def augMatrix (m n : ℕ) (D : ℕ → ℕ → ℚ) (τ bf df : ℚ) (r c : ℕ) : ℚ :=
  if r < m then
    if c < n then
      (if D r c ≤ τ then D r c else no_link m n D τ bf df)
    else
      (if c = n + r then d_cost m n D τ df else no_link m n D τ bf df)
  else
    if c < n then
      (if r = m + c then b_cost m n D τ bf else no_link m n D τ bf df)
    else 0

/-- Total cost of an assignment given as a row-to-column list. -/
def assignCost (N : ℕ) (C : ℕ → ℕ → ℚ) (σL : List ℕ) : ℚ :=
  ((List.range N).map (fun k => C k (σL.getD k 0))).sum

/-- Exact assignment solver: minimise the cost over all permutations. -/
def solveAssignment (N : ℕ) (C : ℕ → ℕ → ℚ) : List ℕ :=
  ((List.range N).permutations.argmin (assignCost N C)).getD (List.range N)

/-- Decode a square assignment: original-to-original matches are links, a row
sent to an augmented column is a death, an augmented row sent to an original
column is a birth; ids are one-based. -/
def bmDecode (m n : ℕ) (σL : List ℕ) : LinkResult :=
  { idsFrom := ((List.range m).filter
      (fun i => decide (σL.getD i 0 < n))).map (fun i => i + 1)
  , idsTo := ((List.range m).filter
      (fun i => decide (σL.getD i 0 < n))).map (fun i => σL.getD i 0 + 1)
  , births := ((List.range n).filter
      (fun j => decide (σL.getD (m + j) 0 < n))).map
        (fun j => σL.getD (m + j) 0 + 1)
  , deaths := ((List.range m).filter
      (fun i => decide (n ≤ σL.getD i 0))).map (fun i => i + 1) }

/-- `BipartiteMatchingLinker._link_two_frames` on an `m x n` cost matrix. -/
def _link_two_frames (m n : ℕ) (D : ℕ → ℕ → ℚ) (τ bf df : ℚ) :
    Option LinkResult :=
  if m = 0 ∨ n = 0 then none
  else some (bmDecode m n (solveAssignment (m + n) (augMatrix m n D τ bf df)))

/-- Total cost of a linking result: accepted link costs plus birth and death
costs (ids are one-based). -/
def resultCost (D : ℕ → ℕ → ℚ) (b d : ℚ) (r : LinkResult) : ℚ :=
  ((r.idsFrom.zip r.idsTo).map (fun p => D (p.1 - 1) (p.2 - 1))).sum +
    b * r.births.length + d * r.deaths.length

/-- Total cost of an arbitrary feasible 1-to-1 matching `f` of rows to
columns: link costs for matched rows, a death cost per unmatched row, a
birth cost per unmatched column. -/
def matchingCost (m n : ℕ) (D : ℕ → ℕ → ℚ) (b d : ℚ)
    (f : ℕ → Option ℕ) : ℚ :=
  ((List.range m).map (fun i => ((f i).map (fun j => D i j)).getD d)).sum +
    b * ((List.range n).filter
      (fun j => decide (∀ i, i < m → f i ≠ some j))).length

/-- The row matched to column `j`, if any. -/
def invF (m : ℕ) (f : ℕ → Option ℕ) (j : ℕ) : Option ℕ :=
  (List.range m).find? (fun i => decide (f i = some j))

/-- Encode a partial matching as a square assignment: matched rows keep their
column, unmatched row `i` goes to augmented column `n + i`, unmatched column
`j` is taken by augmented row `m + j`, and the complement pairs fill the
zero block. -/
def encodeMatching (m n : ℕ) (f : ℕ → Option ℕ) : List ℕ :=
  ((List.range m).map (fun i => (f i).getD (n + i))) ++
  ((List.range n).map
    (fun j => ((invF m f j).map (fun i => n + i)).getD j))

lemma le_foldl_max : ∀ (l : List ℚ) (a : ℚ), a ≤ l.foldl max a := by
  intro l
  induction l with
  | nil => intro a; exact le_refl a
  | cons x xs ih =>
    intro a
    exact le_trans (le_max_left a x) (ih (max a x))

lemma mem_le_foldl_max {l : List ℚ} {x : ℚ} (hx : x ∈ l) :
    ∀ a : ℚ, x ≤ l.foldl max a := by
  induction l with
  | nil => simp at hx
  | cons y ys ih =>
    intro a
    rcases List.mem_cons.mp hx with h | h
    · subst h
      exact le_trans (le_max_right a x) (le_foldl_max ys (max a x))
    · exact ih h (max a y)

lemma le_matMax {m n : ℕ} {D : ℕ → ℕ → ℚ} {i j : ℕ}
    (hi : i < m) (hj : j < n) : D i j ≤ matMax m n D := by
  have hmem : D i j ∈ (List.product (List.range m) (List.range n)).map
      (fun p => D p.1 p.2) :=
    List.mem_map.mpr ⟨(i, j), List.mem_product.mpr
      ⟨List.mem_range.mpr hi, List.mem_range.mpr hj⟩, rfl⟩
  exact mem_le_foldl_max hmem _

lemma matMax_nonneg {m n : ℕ} {D : ℕ → ℕ → ℚ}
    (hD : ∀ i j, i < m → j < n → 0 ≤ D i j) (hm : 0 < m) (hn : 0 < n) :
    0 ≤ matMax m n D :=
  le_trans (hD 0 0 hm hn) (le_foldl_max _ _)

lemma b_cost_nonneg {m n : ℕ} {D : ℕ → ℕ → ℚ} {τ bf : ℚ}
    (hbf : 0 ≤ bf) (hτ : 0 ≤ τ) (hM : 0 ≤ matMax m n D) :
    0 ≤ b_cost m n D τ bf :=
  mul_nonneg hbf (le_min hτ hM)

lemma d_cost_nonneg {m n : ℕ} {D : ℕ → ℕ → ℚ} {τ df : ℚ}
    (hdf : 0 ≤ df) (hτ : 0 ≤ τ) (hM : 0 ≤ matMax m n D) :
    0 ≤ d_cost m n D τ df :=
  mul_nonneg hdf (le_min hτ hM)

lemma le_no_link {m n : ℕ} {D : ℕ → ℕ → ℚ} {τ bf df : ℚ} {x : ℚ}
    (hM : 0 ≤ matMax m n D)
    (hx : x ≤ max (matMax m n D)
      (max (b_cost m n D τ bf) (d_cost m n D τ df))) :
    x ≤ no_link m n D τ bf df := by
  have h0 : 0 ≤ max (matMax m n D)
      (max (b_cost m n D τ bf) (d_cost m n D τ df)) :=
    le_trans hM (le_max_left _ _)
  have h1 : max (matMax m n D)
      (max (b_cost m n D τ bf) (d_cost m n D τ df)) * 1 ≤
      max (matMax m n D)
        (max (b_cost m n D τ bf) (d_cost m n D τ df)) * 1000000000 :=
    mul_le_mul_of_nonneg_left (by norm_num) h0
  rw [mul_one] at h1
  exact le_trans hx h1

lemma sum_map_ite {α : Type} (p : α → Bool) (f : α → ℚ) (c : ℚ) :
    ∀ l : List α, (l.map (fun x => if p x then f x else c)).sum =
      ((l.filter p).map f).sum +
        c * ((l.filter (fun x => ! p x)).length : ℚ) := by
  intro l
  induction l with
  | nil => simp
  | cons x xs ih =>
    by_cases h : p x
    · rw [List.filter_cons_of_pos h, List.filter_cons_of_neg (by simp [h])]
      simp only [List.map_cons, List.sum_cons, if_pos h, ih]
      ring
    · rw [List.filter_cons_of_neg h, List.filter_cons_of_pos (by simp [h])]
      simp only [List.map_cons, List.sum_cons, if_neg h, ih,
        List.length_cons]
      push_cast
      ring

lemma sum_map_ite_const {α : Type} (p : α → Bool) (c : ℚ) :
    ∀ l : List α, (l.map (fun x => if p x then c else (0 : ℚ))).sum =
      c * ((l.filter p).length : ℚ) := by
  intro l
  induction l with
  | nil => simp
  | cons x xs ih =>
    by_cases h : p x
    · rw [List.filter_cons_of_pos h]
      simp only [List.map_cons, List.sum_cons, if_pos h, ih,
        List.length_cons]
      push_cast
      ring
    · rw [List.filter_cons_of_neg h]
      simp only [List.map_cons, List.sum_cons, if_neg h, ih]
      ring

lemma assignCost_split (m n : ℕ) (C : ℕ → ℕ → ℚ) (σL : List ℕ) :
    assignCost (m + n) C σL =
      ((List.range m).map (fun i => C i (σL.getD i 0))).sum +
      ((List.range n).map (fun j => C (m + j) (σL.getD (m + j) 0))).sum := by
  rw [assignCost, List.range_add, List.map_append, List.sum_append,
    List.map_map]
  rfl

lemma resultCost_le_assignCost (m n : ℕ) (D : ℕ → ℕ → ℚ) (τ bf df : ℚ)
    (hm : 0 < m) (hn : 0 < n)
    (hD : ∀ i j, i < m → j < n → 0 ≤ D i j) (hτ : 0 ≤ τ)
    (hbf : 0 ≤ bf) (hdf : 0 ≤ df) (σL : List ℕ) :
    resultCost D (b_cost m n D τ bf) (d_cost m n D τ df) (bmDecode m n σL) ≤
      assignCost (m + n) (augMatrix m n D τ bf df) σL := by
  have hM : 0 ≤ matMax m n D := matMax_nonneg hD hm hn
  have hb0 : 0 ≤ b_cost m n D τ bf := b_cost_nonneg hbf hτ hM
  have hd0 : 0 ≤ d_cost m n D τ df := d_cost_nonneg hdf hτ hM
  have hbNL : b_cost m n D τ bf ≤ no_link m n D τ bf df :=
    le_no_link hM (le_trans (le_max_left _ _) (le_max_right _ _))
  have hdNL : d_cost m n D τ df ≤ no_link m n D τ bf df :=
    le_no_link hM (le_trans (le_max_right _ _) (le_max_right _ _))
  have hrc : resultCost D (b_cost m n D τ bf) (d_cost m n D τ df)
      (bmDecode m n σL) =
      ((List.range m).map (fun i =>
        if decide (σL.getD i 0 < n) then D i (σL.getD i 0)
        else d_cost m n D τ df)).sum +
      ((List.range n).map (fun j =>
        if decide (σL.getD (m + j) 0 < n) then b_cost m n D τ bf
        else (0 : ℚ))).sum := by
    rw [sum_map_ite, sum_map_ite_const]
    have hzip : ((bmDecode m n σL).idsFrom.zip (bmDecode m n σL).idsTo) =
        ((List.range m).filter (fun i => decide (σL.getD i 0 < n))).map
          (fun i => (i + 1, σL.getD i 0 + 1)) := by
      rw [bmDecode]
      exact List.zip_map' _ _ _
    have hlinks : (((bmDecode m n σL).idsFrom.zip
        (bmDecode m n σL).idsTo).map (fun p => D (p.1 - 1) (p.2 - 1))).sum =
        ((((List.range m).filter
          (fun i => decide (σL.getD i 0 < n)))).map
          (fun i => D i (σL.getD i 0))).sum := by
      rw [hzip, List.map_map]
      refine congrArg _ (List.map_congr_left ?_)
      intro i _
      simp [Nat.add_sub_cancel]
    have hdeaths : ((bmDecode m n σL).deaths.length : ℚ) =
        (((List.range m).filter
          (fun i => ! decide (σL.getD i 0 < n))).length : ℚ) := by
      rw [bmDecode]
      simp only [List.length_map]
      refine congrArg _ (congrArg _ (List.filter_congr ?_))
      intro i _
      by_cases h : σL.getD i 0 < n
      · rw [decide_eq_false (Nat.not_le.mpr h), decide_eq_true h,
          Bool.not_true]
      · rw [decide_eq_true (Nat.not_lt.mp h), decide_eq_false h,
          Bool.not_false]
    have hbirths : ((bmDecode m n σL).births.length : ℚ) =
        (((List.range n).filter
          (fun j => decide (σL.getD (m + j) 0 < n))).length : ℚ) := by
      rw [bmDecode]
      simp only [List.length_map]
    rw [resultCost, hlinks, hdeaths, hbirths]
    ring
  rw [hrc, assignCost_split]
  have hrow : ((List.range m).map (fun i =>
      if decide (σL.getD i 0 < n) then D i (σL.getD i 0)
      else d_cost m n D τ df)).sum ≤
      ((List.range m).map
        (fun i => augMatrix m n D τ bf df i (σL.getD i 0))).sum := by
    refine List.sum_le_sum ?_
    intro i hi
    have him : i < m := List.mem_range.mp hi
    by_cases h : σL.getD i 0 < n
    · rw [if_pos (decide_eq_true h)]
      simp only [augMatrix]
      rw [if_pos him, if_pos h]
      by_cases ht : D i (σL.getD i 0) ≤ τ
      · rw [if_pos ht]
      · rw [if_neg ht]
        exact le_no_link hM (le_trans (le_matMax him h) (le_max_left _ _))
    · rw [if_neg (by simpa using h)]
      simp only [augMatrix]
      rw [if_pos him, if_neg h]
      by_cases hdg : σL.getD i 0 = n + i
      · rw [if_pos hdg]
      · rw [if_neg hdg]
        exact hdNL
  have haug : ((List.range n).map (fun j =>
      if decide (σL.getD (m + j) 0 < n) then b_cost m n D τ bf
      else (0 : ℚ))).sum ≤
      ((List.range n).map
        (fun j => augMatrix m n D τ bf df (m + j) (σL.getD (m + j) 0))).sum := by
    refine List.sum_le_sum ?_
    intro j hj
    have hrm : ¬ m + j < m := by omega
    by_cases h : σL.getD (m + j) 0 < n
    · rw [if_pos (decide_eq_true h)]
      simp only [augMatrix]
      rw [if_neg hrm, if_pos h]
      by_cases hdg : m + j = m + σL.getD (m + j) 0
      · rw [if_pos hdg]
      · rw [if_neg hdg]
        exact hbNL
    · rw [if_neg (by simpa using h)]
      simp only [augMatrix]
      rw [if_neg hrm, if_neg h]
  exact add_le_add hrow haug

lemma solveAssignment_le (N : ℕ) (C : ℕ → ℕ → ℚ) (l : List ℕ)
    (hl : l.Perm (List.range N)) :
    assignCost N C (solveAssignment N C) ≤ assignCost N C l := by
  have hmem : l ∈ (List.range N).permutations := List.mem_permutations.mpr hl
  rcases hargm : (List.range N).permutations.argmin (assignCost N C)
    with _ | σ
  · rw [List.argmin_eq_none.mp hargm] at hmem
    simp at hmem
  · have hres : solveAssignment N C = σ := by
      rw [solveAssignment, hargm]
      rfl
    rw [hres]
    exact List.le_of_mem_argmin hmem (Option.mem_def.mpr hargm)

lemma invF_some {m : ℕ} {f : ℕ → Option ℕ} {j i : ℕ}
    (h : invF m f j = some i) : i < m ∧ f i = some j := by
  rw [invF] at h
  refine ⟨List.mem_range.mp (List.mem_of_find?_eq_some h), ?_⟩
  have h2 := List.find?_some h
  simpa using h2

lemma invF_none {m : ℕ} {f : ℕ → Option ℕ} {j : ℕ}
    (h : invF m f j = none) : ∀ i, i < m → f i ≠ some j := by
  rw [invF] at h
  intro i hi hf
  have := List.find?_eq_none.mp h i (List.mem_range.mpr hi)
  simp [hf] at this

lemma encodeMatching_getD_row {m n : ℕ} {f : ℕ → Option ℕ} {i : ℕ}
    (hi : i < m) :
    (encodeMatching m n f).getD i 0 = (f i).getD (n + i) := by
  rw [encodeMatching, List.getD_append _ _ _ i (by simpa using hi)]
  refine getD_of_get? ?_ 0
  rw [List.get?_map, List.get?_range hi]
  rfl

lemma encodeMatching_getD_aug {m n : ℕ} {f : ℕ → Option ℕ} {j : ℕ}
    (hj : j < n) :
    (encodeMatching m n f).getD (m + j) 0 =
      ((invF m f j).map (fun i => n + i)).getD j := by
  rw [encodeMatching,
    List.getD_append_right _ _ _ (m + j) (by simp)]
  simp only [List.length_map, List.length_range, Nat.add_sub_cancel_left]
  refine getD_of_get? ?_ 0
  rw [List.get?_map, List.get?_range hj]
  rfl

lemma encodeMatching_perm (m n : ℕ) (f : ℕ → Option ℕ)
    (hfRange : ∀ i j, i < m → f i = some j → j < n)
    (hfInj : ∀ i1 i2 j, i1 < m → i2 < m → f i1 = some j → f i2 = some j →
      i1 = i2) :
    (encodeMatching m n f).Perm (List.range (m + n)) := by
  have hlen : (encodeMatching m n f).length = m + n := by
    simp [encodeMatching]
  have hnd : (encodeMatching m n f).Nodup := by
    rw [encodeMatching, List.nodup_append]
    refine ⟨?_, ?_, ?_⟩
    · refine List.Nodup.map_on ?_ (List.nodup_range m)
      intro x hx y hy hxy
      have hxm : x < m := List.mem_range.mp hx
      have hym : y < m := List.mem_range.mp hy
      cases hfx : f x with
      | some jx =>
        cases hfy : f y with
        | some jy =>
          simp only [hfx, hfy, Option.getD_some, Option.getD_none, Option.map_some', Option.map_none'] at hxy
          exact hfInj x y jx hxm hym hfx (hxy ▸ hfy)
        | none =>
          simp only [hfx, hfy, Option.getD_some, Option.getD_none, Option.map_some', Option.map_none'] at hxy
          have := hfRange x jx hxm hfx
          omega
      | none =>
        cases hfy : f y with
        | some jy =>
          simp only [hfx, hfy, Option.getD_some, Option.getD_none, Option.map_some', Option.map_none'] at hxy
          have := hfRange y jy hym hfy
          omega
        | none =>
          simp only [hfx, hfy, Option.getD_some, Option.getD_none, Option.map_some', Option.map_none'] at hxy
          omega
    · refine List.Nodup.map_on ?_ (List.nodup_range n)
      intro x hx y hy hxy
      have hxn : x < n := List.mem_range.mp hx
      have hyn : y < n := List.mem_range.mp hy
      cases hix : invF m f x with
      | some ix =>
        cases hiy : invF m f y with
        | some iy =>
          simp only [hix, hiy, Option.getD_some, Option.getD_none, Option.map_some', Option.map_none'] at hxy
          have hii : ix = iy := by omega
          have h1 := (invF_some hix).2
          have h2 := (invF_some hiy).2
          rw [hii, h2] at h1
          exact (Option.some.injEq _ _).mp h1.symm
        | none =>
          simp only [hix, hiy, Option.getD_some, Option.getD_none, Option.map_some', Option.map_none'] at hxy
          omega
      | none =>
        cases hiy : invF m f y with
        | some iy =>
          simp only [hix, hiy, Option.getD_some, Option.getD_none, Option.map_some', Option.map_none'] at hxy
          omega
        | none =>
          simp only [hix, hiy, Option.getD_some, Option.getD_none, Option.map_some', Option.map_none'] at hxy
          exact hxy
    · intro a ha hb
      obtain ⟨x, hx, hxa⟩ := List.mem_map.mp ha
      obtain ⟨y, hy, hya⟩ := List.mem_map.mp hb
      have hxm : x < m := List.mem_range.mp hx
      have hyn : y < n := List.mem_range.mp hy
      cases hfx : f x with
      | some jx =>
        simp only [hfx, Option.getD_some, Option.getD_none, Option.map_some', Option.map_none'] at hxa
        have hjxn : jx < n := hfRange x jx hxm hfx
        cases hiy : invF m f y with
        | some iy =>
          simp only [hiy, Option.getD_some, Option.getD_none, Option.map_some', Option.map_none'] at hya
          omega
        | none =>
          simp only [hiy, Option.getD_some, Option.getD_none, Option.map_some', Option.map_none'] at hya
          have hja : jx = y := by omega
          exact invF_none hiy x hxm (hja ▸ hfx)
      | none =>
        simp only [hfx, Option.getD_some, Option.getD_none, Option.map_some', Option.map_none'] at hxa
        cases hiy : invF m f y with
        | some iy =>
          simp only [hiy, Option.getD_some, Option.getD_none, Option.map_some', Option.map_none'] at hya
          have hii : x = iy := by omega
          have := (invF_some hiy).2
          rw [← hii, hfx] at this
          cases this
        | none =>
          simp only [hiy, Option.getD_some, Option.getD_none, Option.map_some', Option.map_none'] at hya
          omega
  have hsub : encodeMatching m n f ⊆ List.range (m + n) := by
    intro a ha
    rw [List.mem_range]
    rw [encodeMatching] at ha
    rcases List.mem_append.mp ha with h | h
    · obtain ⟨x, hx, hxa⟩ := List.mem_map.mp h
      have hxm : x < m := List.mem_range.mp hx
      cases hfx : f x with
      | some jx =>
        simp only [hfx, Option.getD_some, Option.getD_none, Option.map_some', Option.map_none'] at hxa
        have := hfRange x jx hxm hfx
        omega
      | none =>
        simp only [hfx, Option.getD_some, Option.getD_none, Option.map_some', Option.map_none'] at hxa
        omega
    · obtain ⟨y, hy, hya⟩ := List.mem_map.mp h
      have hyn : y < n := List.mem_range.mp hy
      cases hiy : invF m f y with
      | some iy =>
        simp only [hiy, Option.getD_some, Option.getD_none, Option.map_some', Option.map_none'] at hya
        have := (invF_some hiy).1
        omega
      | none =>
        simp only [hiy, Option.getD_some, Option.getD_none, Option.map_some', Option.map_none'] at hya
        omega
  refine (List.subperm_of_subset hnd hsub).perm_of_length_le ?_
  rw [hlen, List.length_range]

lemma assignCost_encode (m n : ℕ) (D : ℕ → ℕ → ℚ) (τ bf df : ℚ)
    (f : ℕ → Option ℕ)
    (hfRange : ∀ i j, i < m → f i = some j → j < n)
    (hfThr : ∀ i j, i < m → f i = some j → D i j ≤ τ) :
    assignCost (m + n) (augMatrix m n D τ bf df) (encodeMatching m n f) =
      matchingCost m n D (b_cost m n D τ bf) (d_cost m n D τ df) f := by
  rw [assignCost_split, matchingCost]
  have hrow : ((List.range m).map (fun i => augMatrix m n D τ bf df i
      ((encodeMatching m n f).getD i 0))).sum =
      ((List.range m).map
        (fun i => ((f i).map (fun j => D i j)).getD (d_cost m n D τ df))).sum := by
    refine congrArg _ (List.map_congr_left ?_)
    intro i hi
    have him : i < m := List.mem_range.mp hi
    rw [encodeMatching_getD_row him]
    cases hfi : f i with
    | some j =>
      have hjn : j < n := hfRange i j him hfi
      have hτj : D i j ≤ τ := hfThr i j him hfi
      simp [hfi, augMatrix, him, hjn, hτj]
    | none =>
      have h1 : ¬ n + i < n := by omega
      simp [hfi, augMatrix, him, h1]
  have haug : ((List.range n).map (fun j => augMatrix m n D τ bf df (m + j)
      ((encodeMatching m n f).getD (m + j) 0))).sum =
      b_cost m n D τ bf * (((List.range n).filter
        (fun j => decide (∀ i, i < m → f i ≠ some j))).length : ℚ) := by
    have hptw : ((List.range n).map (fun j => augMatrix m n D τ bf df (m + j)
        ((encodeMatching m n f).getD (m + j) 0))).sum =
        ((List.range n).map (fun j =>
          if decide (invF m f j = none) then b_cost m n D τ bf
          else (0 : ℚ))).sum := by
      refine congrArg _ (List.map_congr_left ?_)
      intro j hj
      have hjn : j < n := List.mem_range.mp hj
      rw [encodeMatching_getD_aug hjn]
      have hrm : ¬ m + j < m := by omega
      cases hij : invF m f j with
      | some i =>
        have h1 : ¬ n + i < n := by omega
        simp [hij, augMatrix, hrm, h1]
      | none =>
        simp [hij, augMatrix, hrm, hjn]
    rw [hptw, sum_map_ite_const]
    have hfe : (List.range n).filter (fun j => decide (invF m f j = none)) =
        (List.range n).filter
          (fun j => decide (∀ i, i < m → f i ≠ some j)) := by
      refine List.filter_congr ?_
      intro j _
      rw [decide_eq_decide]
      constructor
      · exact fun h => invF_none h
      · intro h
        rcases hij : invF m f j with _ | i
        · rfl
        · obtain ⟨hi, hfi⟩ := invF_some hij
          exact absurd hfi (h i hi)
    rw [hfe]
  rw [hrow, haug]

/-- C1: the assignment-variant linker is optimal: for every strictly positive
matrix shape, non-negative costs, threshold and cost factors, and every
feasible thresholded 1-to-1 matching `f`, `_link_two_frames` succeeds and the
total cost of its result (link costs plus birth and death costs) is at most
the total cost of `f`. -/
theorem C1_bipartite_matching_optimal
    (m n : ℕ) (D : ℕ → ℕ → ℚ) (τ bf df : ℚ)
    (hm : 0 < m) (hn : 0 < n)
    (hD : ∀ i j, i < m → j < n → 0 ≤ D i j)
    (hτ : 0 ≤ τ) (hbf : 0 ≤ bf) (hdf : 0 ≤ df)
    (f : ℕ → Option ℕ)
    (hfRange : ∀ i j, i < m → f i = some j → j < n)
    (hfInj : ∀ i1 i2 j, i1 < m → i2 < m → f i1 = some j → f i2 = some j →
      i1 = i2)
    (hfThr : ∀ i j, i < m → f i = some j → D i j ≤ τ) :
    ∃ r, _link_two_frames m n D τ bf df = some r ∧
      resultCost D (b_cost m n D τ bf) (d_cost m n D τ df) r ≤
        matchingCost m n D (b_cost m n D τ bf) (d_cost m n D τ df) f := by
  have hne : ¬ (m = 0 ∨ n = 0) := by omega
  refine ⟨bmDecode m n (solveAssignment (m + n) (augMatrix m n D τ bf df)),
    by rw [_link_two_frames, if_neg hne], ?_⟩
  have h1 := resultCost_le_assignCost m n D τ bf df hm hn hD hτ hbf hdf
    (solveAssignment (m + n) (augMatrix m n D τ bf df))
  have h2 := solveAssignment_le (m + n) (augMatrix m n D τ bf df)
    (encodeMatching m n f) (encodeMatching_perm m n f hfRange hfInj)
  have h3 := assignCost_encode m n D τ bf df f hfRange hfThr
  exact le_trans h1 (le_trans h2 (le_of_eq h3))

/-- C1 witness: a 1 x 1 zero cost matrix with threshold 1 and unit factors,
compared against the matching that links nothing. -/
theorem C1_bipartite_matching_optimal_witness :
    ∃ r, _link_two_frames 1 1 (fun _ _ => 0) 1 1 1 = some r ∧
      resultCost (fun _ _ => 0) (b_cost 1 1 (fun _ _ => 0) 1 1)
          (d_cost 1 1 (fun _ _ => 0) 1 1) r ≤
        matchingCost 1 1 (fun _ _ => 0) (b_cost 1 1 (fun _ _ => 0) 1 1)
          (d_cost 1 1 (fun _ _ => 0) 1 1) (fun _ => none) :=
  C1_bipartite_matching_optimal 1 1 (fun _ _ => 0) 1 1 1
    (by decide) (by decide)
    (fun _ _ _ _ => le_refl 0) (by norm_num) (by norm_num) (by norm_num)
    (fun _ => none)
    (fun _ _ _ h => Option.noConfusion h)
    (fun _ _ _ _ _ h _ => Option.noConfusion h)
    (fun _ _ _ h => Option.noConfusion h)

/-- C6: on an empty cost matrix (`m = 0` or `n = 0`) `_link_two_frames` does
not complete: the given preamble evaluates `cost_matrix.max()`, which raises
`ValueError` on a zero-size array, modelled here as `none`. -/
theorem C6_empty_matrix_link_crashes
    (m n : ℕ) (D : ℕ → ℕ → ℚ) (τ bf df : ℚ) (h : m = 0 ∨ n = 0) :
    _link_two_frames m n D τ bf df = none := by
  rw [_link_two_frames, if_pos h]

/-- C6 witness: a frame pair with zero detections on the left. -/
theorem C6_empty_matrix_link_crashes_witness :
    _link_two_frames 0 3 (fun _ _ => 0) 50 1 1 = none :=
  C6_empty_matrix_link_crashes 0 3 (fun _ _ => 0) 50 1 1 (Or.inl rfl)

end Tracking
